import Mathlib

/-!
Verification development for the Gottesman-Knill stabilizer backend
(`blueqat_gk_backend/__init__.py`).

The Python code is shallowly embedded as pure Lean functions:

* Python lists of one-character strings become `List Pauli`;
* the in-place mutation of shared `Stabilizer` objects is made explicit:
  wherever the Python code holds a list of aliased objects (the working
  list `sts = stabilizers[:]` in `_meas_all_comm`, the `noncommutatives`
  list in `gate_measure`), the model keeps a list of *indices* into the
  caller's list and performs functional updates (`List.set`) on that
  list, which reproduces the aliasing semantics exactly;
* `random.random()` becomes an explicit stream `rng : Nat → Rat`
  (the code only ever compares the draw with `0.5`);
* raised exceptions become `Option` (`none` = raise): the `ValueError`
  of `_meas_all_comm`, and the `AssertionError` of the
  `assert phase in (-2, 0, 2)` in `Stabilizer.__mul_pauli_and_phase`
  (which is reachable: two commuting generators can multiply with a
  summed phase of `±4`, where the code aborts instead of combining);
  the `ValueError` for an unknown `returns` option becomes
  `Except String`.  The `assert phase in (-2, 0, 2)` inside `gate_cx`
  never fires (the two phase contributions there always sum to
  `-2`, `0` or `2`), so the CX conjugation is modelled total.
-/

/-- Pauli symbol alphabet: the one-character strings `'I','X','Y','Z'`. -/
inductive Pauli
  | I
  | X
  | Y
  | Z
deriving DecidableEq, Repr

instance : Fintype Pauli :=
  ⟨⟨{Pauli.I, Pauli.X, Pauli.Y, Pauli.Z}, by decide⟩, fun p => by cases p <;> decide⟩

/-- Single-qubit gate kinds appearing as first component of `gk_table` keys. -/
inductive SGate
  | x
  | y
  | z
  | h
  | s
  | sdg
deriving DecidableEq, Repr

instance : Fintype SGate :=
  ⟨⟨{SGate.x, SGate.y, SGate.z, SGate.h, SGate.s, SGate.sdg}, by decide⟩,
   fun g => by cases g <;> decide⟩

open Pauli

/-- The `gk_table` dictionary: `(gate, pauli) ↦ (next pauli, sign factor)`.
The Python dict has no `'I'` keys; every caller guards on `pauli != 'I'`,
so the `I` catch-all row below is never consulted. -/
def gk_table : SGate → Pauli → Pauli × Int
  | .x, X => (X, 1)
  | .x, Y => (Y, -1)
  | .x, Z => (Z, -1)
  | .y, X => (X, -1)
  | .y, Y => (Y, 1)
  | .y, Z => (Z, -1)
  | .z, X => (X, -1)
  | .z, Y => (Y, -1)
  | .z, Z => (Z, 1)
  | .h, X => (Z, 1)
  | .h, Y => (Y, -1)
  | .h, Z => (X, 1)
  | .s, X => (Y, 1)
  | .s, Y => (X, -1)
  | .s, Z => (Z, 1)
  | .sdg, X => (Y, -1)
  | .sdg, Y => (X, 1)
  | .sdg, Z => (Z, 1)
  | _, I => (I, 1)

/-- The `_mul` nested dictionary: `(left, right) ↦ (product symbol, phase)`. -/
def pmul : Pauli → Pauli → Pauli × Int
  | I, b => (b, 0)
  | X, I => (X, 0)
  | X, X => (I, 0)
  | X, Y => (Z, -1)
  | X, Z => (Y, 1)
  | Y, I => (Y, 0)
  | Y, X => (Z, 1)
  | Y, Y => (I, 0)
  | Y, Z => (X, -1)
  | Z, I => (Z, 0)
  | Z, X => (Y, -1)
  | Z, Y => (X, 1)
  | Z, Z => (I, 0)

/-- Product symbol component of `pmul`. -/
def pmulSym (a b : Pauli) : Pauli := (pmul a b).1

/-- The `Stabilizer` dataclass: a pauli string plus an integer sign. -/
structure Stabilizer where
  pauli : List Pauli
  sign : Int
deriving DecidableEq, Repr

/-- Summed phase of `Stabilizer.__mul_pauli_and_phase`:
`sum(_mul[lc][rc][1] for lc, rc in zip(...))`. -/
def mulPhase (a b : Stabilizer) : Int :=
  (List.zipWith (fun x y => (pmul x y).2) a.pauli b.pauli).sum

/-- The stabilizer value `__mul_pauli_and_phase` computes when its
`assert phase in (-2, 0, 2)` passes: position-wise `_mul` product, sign
`a.sign * b.sign`, flipped when the summed phase is nonzero. -/
def Stabilizer.mulVal (a b : Stabilizer) : Stabilizer :=
  ⟨List.zipWith pmulSym a.pauli b.pauli,
   if mulPhase a b ≠ 0 then -(a.sign * b.sign) else a.sign * b.sign⟩

/-- `Stabilizer.__mul__` / `__imul__` (both call `__mul_pauli_and_phase`):
the `assert phase in (-2, 0, 2)` raises `AssertionError` for any other
summed phase (modelled as `none`); otherwise the combined stabilizer of
`Stabilizer.mulVal` is returned. -/
def Stabilizer.mul (a b : Stabilizer) : Option Stabilizer :=
  if mulPhase a b = -2 ∨ mulPhase a b = 0 ∨ mulPhase a b = 2
  then some (a.mulVal b) else none

/-- `GottesmanKnillBackend._make_z_stabilizer n n_qubits`:
`n` copies of `I`, then `Z`, then `n_qubits - n - 1` copies of `I`,
with sign `+1`. -/
def make_z_stabilizer (n n_qubits : Nat) : Stabilizer :=
  ⟨List.replicate n I ++ Z :: List.replicate (n_qubits - n - 1) I, 1⟩

/-- Read a stabilizer out of the caller's list by index (Python object
access; indices used by the code are always in range). -/
def getSt (sts : List Stabilizer) (j : Nat) : Stabilizer :=
  sts.getD j ⟨[], 1⟩

/-- Symbol of stabilizer `j` at qubit position `i` (`sts[j].pauli[i]`). -/
def stabAt (sts : List Stabilizer) (j i : Nat) : Pauli :=
  (getSt sts j).pauli.getD i I

/-- Simulation context: `_GottesmanKnillBackendContext` minus the
`returns` field, which the model keeps at the `run` level. -/
structure Ctx where
  stabilizers : List Stabilizer
  measured : List Bool
deriving DecidableEq, Repr

/-- Body of the inner loop of `_single_qubit_gate` for one stabilizer and
one target index: `if st.pauli[idx] != 'I': pauli, sign = gk_table[...]`. -/
def conj1 (g : SGate) (idx : Nat) (st : Stabilizer) : Stabilizer :=
  let p := st.pauli.getD idx I
  if p = I then st
  else ⟨st.pauli.set idx (gk_table g p).1, st.sign * (gk_table g p).2⟩

/-- `_single_qubit_gate`: for each target index, update every stabilizer. -/
def single_qubit_gate (g : SGate) (targets : List Nat) (ctx : Ctx) : Ctx :=
  targets.foldl (fun c idx => ⟨c.stabilizers.map (conj1 g idx), c.measured⟩) ctx

/-- Body of the inner loop of `gate_cx` for one stabilizer and one
`(control, target)` pair.  `cpauli`/`tpauli` are read before either
position is written, exactly as in the Python code. -/
def conjCX (c t : Nat) (st : Stabilizer) : Stabilizer :=
  let cp := st.pauli.getD c I
  let tp := st.pauli.getD t I
  let s1 : List Pauli × Int :=
    if cp = X ∨ cp = Y then (st.pauli.set t (pmul X tp).1, (pmul X tp).2)
    else (st.pauli, 0)
  let s2 : List Pauli × Int :=
    if tp = Y ∨ tp = Z then (s1.1.set c (pmul cp Z).1, s1.2 + (pmul cp Z).2)
    else s1
  ⟨s2.1, if s2.2 ≠ 0 then -st.sign else st.sign⟩

/-- `gate_cx`: for each `(control, target)` pair, update every stabilizer. -/
def gate_cx (pairs : List (Nat × Nat)) (ctx : Ctx) : Ctx :=
  pairs.foldl (fun cx p => ⟨cx.stabilizers.map (conjCX p.1 p.2), cx.measured⟩) ctx

/-- The `trans(sts, xs)` helper of `_meas_all_comm`.  `cw.1` is the
caller's stabilizer list, `cw.2` the working list `sts` of indices into
it, `xs` the filtered indices.  `st *= xs[0]` mutates the shared objects
(`List.set` on the caller's list); `sts.remove(xs[0])` removes the pivot
from the working list only (the pivot entry is the unique entry of the
working list whose value equals `xs[0]`, since it is the first entry
carrying the filtered letter and the combined entries lose that letter).
Each `st *= xs[0]` can raise `AssertionError` (`none`). -/
def transStep (cw : List Stabilizer × List Nat) (xs : List Nat) :
    Option (List Stabilizer × List Nat) :=
  match xs with
  | [] => some cw
  | x0 :: rest =>
      (rest.foldlM
        (fun c j => ((getSt c j).mul (getSt c x0)).map (fun v => c.set j v))
        cw.1).map
        (fun c' => (c', cw.2.erase x0))

/-- One iteration of the elimination loop of `_meas_all_comm` for qubit
position `i`: skip `i = idx`, otherwise absorb the `X`, then `Y`, then
`Z` carriers at position `i`. -/
def elimPos (idx : Nat) (cw : List Stabilizer × List Nat) (i : Nat) :
    Option (List Stabilizer × List Nat) :=
  if i = idx then some cw
  else
    (transStep cw (cw.2.filter (fun j => decide (stabAt cw.1 j i = X)))).bind
      (fun cw1 =>
        (transStep cw1
          (cw1.2.filter (fun j => decide (stabAt cw1.1 j i = Y)))).bind
          (fun cw2 => transStep cw2
            (cw2.2.filter (fun j => decide (stabAt cw2.1 j i = Z)))))

/-- `_meas_all_comm(idx, stabilizers)`: deterministic measurement.
Returns the measured bit together with the caller's stabilizer list as
it stands after the call (the working list `sts = stabilizers[:]` is a
shallow copy, so `st *= xs[0]` inside `trans` writes through to the
caller's objects).  `none` models both the `raise ValueError('Backend
is buggy. ...')` branch and an `AssertionError` inside `st *= xs[0]`. -/
def meas_all_comm (idx : Nat) (stabilizers : List Stabilizer) :
    Option (Bool × List Stabilizer) :=
  let n := stabilizers.length
  let op := (make_z_stabilizer idx n).pauli
  match stabilizers.find? (fun st => decide (st.pauli = op)) with
  | some chk => some (decide (chk.sign = -1), stabilizers)
  | none =>
      ((List.range n).foldlM (elimPos idx) (stabilizers, List.range n)).bind
        (fun cw =>
          match (cw.2.map (getSt cw.1)).find?
              (fun st => decide (st.pauli = op)) with
          | some chk => some (decide (chk.sign = -1), cw.1)
          | none => none)

/-- `_meas_partial_noncomm(idx, noncomms)`: random-collapse measurement.
`nc` is the list of indices (into the caller's list `sts`) of the
stabilizers whose symbol at `idx` is `X` or `Y`; the Python function
receives the corresponding shared objects.  Every non-pivot is combined
in place with the pivot (each `st *= noncomms[0]` can raise
`AssertionError`, `none`), then the pivot is overwritten with the
canonical `Z`-at-`idx` pattern and a sign decided by the draw `r`.
The `[]` case is unreachable: `gate_measure` only calls this with a
nonempty list (Python would raise `IndexError` on `noncomms[0]`). -/
def meas_noncomm (idx : Nat) (r : Rat) (sts : List Stabilizer)
    (nc : List Nat) : Option (Bool × List Stabilizer) :=
  match nc with
  | [] => some (false, sts)
  | j0 :: rest =>
      let n_qubits := (getSt sts j0).pauli.length
      (rest.foldlM
        (fun c j => ((getSt c j).mul (getSt c j0)).map (fun v => c.set j v))
        sts).map
        (fun sts1 =>
          let pat := (make_z_stabilizer idx n_qubits).pauli
          if r < 1/2 then (false, sts1.set j0 ⟨pat, 1⟩)
          else (true, sts1.set j0 ⟨pat, -1⟩))

/-- One target index of `gate_measure`: partition on the symbol at `idx`,
dispatch to `_meas_partial_noncomm` or `_meas_all_comm`.  The third
component records whether the random draw `r` was consumed. -/
def measure1 (r : Rat) (idx : Nat) (sts : List Stabilizer) :
    Option (Bool × List Stabilizer × Bool) :=
  let nc := (List.range sts.length).filter
    (fun j => decide (stabAt sts j idx = X ∨ stabAt sts j idx = Y))
  match nc with
  | [] => (meas_all_comm idx sts).map (fun br => (br.1, br.2, false))
  | j0 :: rest =>
      (meas_noncomm idx r sts (j0 :: rest)).map (fun br => (br.1, br.2, true))

/-- Gate objects as dispatched by the backend: a kind tag plus the target
indices produced by the external `target_iter` / `control_target_iter`. -/
inductive Gate
  | x (targets : List Nat)
  | y (targets : List Nat)
  | z (targets : List Nat)
  | h (targets : List Nat)
  | s (targets : List Nat)
  | sdg (targets : List Nat)
  | cx (pairs : List (Nat × Nat))
  | measure (targets : List Nat)
deriving DecidableEq, Repr

/-- `gate_measure`: measure each target in turn, recording the outcome in
`ctx.measured[idx]`.  The counter `k` indexes the random stream. -/
def gate_measure (rng : Nat → Rat) (targets : List Nat) (ck : Ctx × Nat) :
    Option (Ctx × Nat) :=
  targets.foldlM
    (fun (ck : Ctx × Nat) idx =>
      (measure1 (rng ck.2) idx ck.1.stabilizers).map
        (fun bsc => (⟨bsc.2.1, ck.1.measured.set idx bsc.1⟩,
                     if bsc.2.2 then ck.2 + 1 else ck.2)))
    ck

/-- Dispatch of one gate to its `gate_*` handler. -/
def applyGate (rng : Nat → Rat) (g : Gate) (ck : Ctx × Nat) :
    Option (Ctx × Nat) :=
  match g with
  | .x ts => some (single_qubit_gate .x ts ck.1, ck.2)
  | .y ts => some (single_qubit_gate .y ts ck.1, ck.2)
  | .z ts => some (single_qubit_gate .z ts ck.1, ck.2)
  | .h ts => some (single_qubit_gate .h ts ck.1, ck.2)
  | .s ts => some (single_qubit_gate .s ts ck.1, ck.2)
  | .sdg ts => some (single_qubit_gate .sdg ts ck.1, ck.2)
  | .cx ps => some (gate_cx ps ck.1, ck.2)
  | .measure ts => gate_measure rng ts ck

/-- `_preprocess_run`: the fresh per-shot context with the `n` canonical
single-qubit `Z` generators and an all-`False` measured array. -/
def preprocess_run (n_qubits : Nat) : Ctx :=
  ⟨(List.range n_qubits).map (fun i => make_z_stabilizer i n_qubits),
   List.replicate n_qubits false⟩

/-- Modelled from the spec: one shot (`run_shot` in spec section 4.5).
The per-shot dispatch loop lives in the external blueqat `Backend` base
class (not in this repository); per the spec it preprocesses a fresh
Tableau State, dispatches each gate in sequence by kind, and returns the
final context. -/
def runShot (rng : Nat → Rat) (gates : List Gate) (n_qubits : Nat)
    (k : Nat) : Option (Ctx × Nat) :=
  gates.foldlM (fun ck g => applyGate rng g ck) (preprocess_run n_qubits, k)

/-- The shots loop of `run`: execute `shots` independent shots, threading
the random-stream counter; a raised error in any shot aborts the run. -/
def runShots (rng : Nat → Rat) (gates : List Gate) (n_qubits : Nat) :
    Nat → Nat → Option (List Ctx)
  | 0, _ => some []
  | sh + 1, k =>
      (runShot rng gates n_qubits k).bind
        (fun ck => (runShots rng gates n_qubits sh ck.2).map
          (fun rest => ck.1 :: rest))

/-- `_postprocess_run` for the `SHOTS` return type:
`''.join('1' if b else '0' for b in ctx.measured)`. -/
def postprocess_shots (ctx : Ctx) : String :=
  ⟨ctx.measured.map (fun b => if b then '1' else '0')⟩

/-- The `returns` enum `_GKReturnType`. -/
inductive RetType
  | shots
  | stabilizers
deriving DecidableEq, Repr

/-- Aggregated result of `run`: the `Counter` of bit strings is kept as
the per-shot list of bit strings (shot order), the stabilizer snapshots
as the per-shot list of final generator lists. -/
inductive RunResult
  | shots (results : List String)
  | stabilizers (snaps : List (List Stabilizer))
deriving DecidableEq, Repr

/-- The option-parsing prefix of `run` (lines 127-137 of the source):
`returns = kwargs.get('returns', 'shots')`, then the
`if / elif / else raise ValueError('Unknown return type.')` chain with
the per-return-type default shot count. -/
def parseReturns (returnsOpt : Option String) (shotsOpt : Option Nat) :
    Except String (RetType × Nat) :=
  let returns := returnsOpt.getD "shots"
  if returns = "shots" then .ok (.shots, shotsOpt.getD 100)
  else if returns = "stabilizers" then .ok (.stabilizers, shotsOpt.getD 1)
  else .error "Unknown return type."

/-- `GottesmanKnillBackend.run`: parse options, run the shots loop,
aggregate per the return type.  An unknown `returns` value errors before
any shot executes; a shot that raises aborts the whole run. -/
def run (rng : Nat → Rat) (gates : List Gate) (n_qubits : Nat)
    (returnsOpt : Option String) (shotsOpt : Option Nat) :
    Except String RunResult :=
  match parseReturns returnsOpt shotsOpt with
  | .error e => .error e
  | .ok (rt, shots) =>
      match runShots rng gates n_qubits shots 0 with
      | none => .error "Backend is buggy."
      | some ctxs =>
          .ok (match rt with
            | .shots => .shots (ctxs.map postprocess_shots)
            | .stabilizers => .stabilizers (ctxs.map Ctx.stabilizers))

/-! ### Spec-level Pauli-string algebra

The invariant of spec section 3 ("pairwise commuting and linearly
independent as Pauli strings") is formalized over bare pauli strings:
commutation via the parity of anticommuting positions, linear
independence over GF(2) via subset products. -/

/-- Anticommutation of two Pauli symbols: distinct and both non-identity. -/
def acSym : Pauli → Pauli → Bool
  | I, _ => false
  | _, I => false
  | a, b => decide (a ≠ b)

/-- Position-wise product of two pauli strings (symbols only). -/
def strMul (a b : List Pauli) : List Pauli := List.zipWith pmulSym a b

/-- The all-identity string of length `n`. -/
def idStr (n : Nat) : List Pauli := List.replicate n I

/-- Parity of the number of anticommuting positions of two strings. -/
def acParity : List Pauli → List Pauli → Bool
  | a :: as, b :: bs => xor (acSym a b) (acParity as bs)
  | _, _ => false

/-- Two pauli strings commute as operators. -/
def commuteB (a b : List Pauli) : Bool := !(acParity a b)

/-- All boolean selection vectors of length `n`. -/
def allSels : Nat → List (List Bool)
  | 0 => [[]]
  | n + 1 => (allSels n).map (false :: ·) ++ (allSels n).map (true :: ·)

/-- Product of the strings selected by `sel` (GF(2) combination). -/
def maskProd : List Bool → List (List Pauli) → Nat → List Pauli
  | b :: sel, p :: ps, n =>
      if b then strMul p (maskProd sel ps n) else maskProd sel ps n
  | _, _, n => idStr n

/-- The pauli strings of a stabilizer list. -/
def strs (sts : List Stabilizer) : List (List Pauli) :=
  sts.map Stabilizer.pauli

/-- Well-formedness: every generator's string has length `n` (`n` = the
number of generators, the qubit count of the Tableau State). -/
def WF (sts : List Stabilizer) : Prop :=
  ∀ st ∈ sts, st.pauli.length = sts.length

/-- Pairwise commutation of a list of pauli strings. -/
def CommAll (ps : List (List Pauli)) : Prop :=
  ∀ i, i < ps.length → ∀ j, j < ps.length → i ≠ j →
    commuteB (ps.getD i []) (ps.getD j []) = true

/-- Linear independence of a list of pauli strings over GF(2): no
nonempty subset multiplies to the all-identity string. -/
def Indep (ps : List (List Pauli)) (n : Nat) : Prop :=
  ∀ sel ∈ allSels ps.length, sel.any id = true → maskProd sel ps n ≠ idStr n

/-- The Tableau State invariant of spec section 3. -/
def Invariant (sts : List Stabilizer) : Prop :=
  WF sts ∧ CommAll (strs sts) ∧ Indep (strs sts) sts.length

instance : DecidablePred WF := fun sts =>
  List.decidableBAll _ sts

instance : Decidable (CommAll ps) :=
  Nat.decidableBallLT _ _

instance : Decidable (Indep ps n) :=
  List.decidableBAll _ _

instance : Decidable (Invariant sts) :=
  instDecidableAnd

/-- Valid targets for one gate: indices below the qubit count; a CX pair
additionally has distinct control and target. -/
def validGateB (g : Gate) (n : Nat) : Bool :=
  match g with
  | .x ts | .y ts | .z ts | .h ts | .s ts | .sdg ts | .measure ts =>
      ts.all (fun t => decide (t < n))
  | .cx ps =>
      ps.all (fun p => decide (p.1 < n) && decide (p.2 < n) && decide (p.1 ≠ p.2))

/-- Symbol-level conjugation map of a single-qubit gate (`I` fixed). -/
def sgSym (g : SGate) (p : Pauli) : Pauli :=
  if p = I then I else (gk_table g p).1

/-- Symbol-plus-sign conjugation step used by `_single_qubit_gate` at one
position, lifted to a `(pauli, sign)` pair. -/
def conjStep (g : SGate) (q : Pauli × Int) : Pauli × Int :=
  if q.1 = I then q else ((gk_table g q.1).1, q.2 * (gk_table g q.1).2)

/-! ### Basic Pauli-algebra facts and the simple claims -/

/-- Position-wise product of a pauli string with itself is all-identity. -/
lemma zipWith_pmulSym_self (l : List Pauli) :
    List.zipWith pmulSym l l = List.replicate l.length I := by
  induction l with
  | nil => rfl
  | cons a as ih =>
      simp only [List.zipWith_cons_cons, List.length_cons, List.replicate_succ, ih]
      cases a <;> rfl

/-- The summed phase of a stabilizer with itself vanishes. -/
lemma mulPhase_self (s : Stabilizer) : mulPhase s s = 0 := by
  unfold mulPhase
  induction s.pauli with
  | nil => rfl
  | cons a as ih =>
      simp only [List.zipWith_cons_cons, List.sum_cons, ih]
      cases a <;> rfl

/-- Claim C2 counterexample: the engine's table gives `X·Y = Z` with
phase `-1`, not the phase `+1` the claim states. -/
theorem claim_C2_cex :
    pmul Pauli.X Pauli.Y = (Pauli.Z, -1) ∧ ((-1 : Int) ≠ 1) := by
  decide

/-- C2 (amended): the Pauli-symbol multiplication returns, for each
ordered pair of distinct non-identity symbols, the product symbol of the
spec's table but with each phase negated (`X·Y=Z` phase `-1`, `Y·X=Z`
phase `+1`, `Y·Z=X` phase `-1`, `Z·Y=X` phase `+1`, `Z·X=Y` phase `-1`,
`X·Z=Y` phase `+1`), and phase `0` for every pair involving `I` or two
equal symbols. -/
theorem claim_C2 :
    pmul Pauli.X Pauli.Y = (Pauli.Z, -1) ∧
    pmul Pauli.Y Pauli.X = (Pauli.Z, 1) ∧
    pmul Pauli.Y Pauli.Z = (Pauli.X, -1) ∧
    pmul Pauli.Z Pauli.Y = (Pauli.X, 1) ∧
    pmul Pauli.Z Pauli.X = (Pauli.Y, -1) ∧
    pmul Pauli.X Pauli.Z = (Pauli.Y, 1) ∧
    (∀ a : Pauli, pmul Pauli.I a = (a, 0) ∧ pmul a Pauli.I = (a, 0) ∧
      (pmul a a).2 = 0) := by
  decide

/-- C6: combining any stabilizer with itself yields the all-identity
pauli string with sign `+1`, for any length, symbols and sign in
`{+1, -1}` (the summed phase is `0`, so the internal phase assertion
always passes on this domain). -/
theorem claim_C6 (s : Stabilizer) (h : s.sign = 1 ∨ s.sign = -1) :
    s.mul s = some ⟨List.replicate s.pauli.length I, 1⟩ := by
  unfold Stabilizer.mul Stabilizer.mulVal
  rw [mulPhase_self, zipWith_pmulSym_self,
    if_pos (Or.inr (Or.inl (rfl : (0 : Int) = 0)))]
  simp only [ne_eq, not_true_eq_false, if_false]
  rcases h with h | h <;> simp [h]

/-- Witness for C6 at a concrete stabilizer. -/
theorem claim_C6_witness :
    (⟨[Pauli.X, Pauli.Y], -1⟩ : Stabilizer).mul ⟨[Pauli.X, Pauli.Y], -1⟩ =
      some ⟨List.replicate (⟨[Pauli.X, Pauli.Y], -1⟩ : Stabilizer).pauli.length I, 1⟩ :=
  claim_C6 ⟨[Pauli.X, Pauli.Y], -1⟩ (Or.inr rfl)

/-- C7: the conjugation table implements the textbook S rule
(`X→Y`, `Y→-X`, `Z` fixed) and its inverse for S-adjoint (`X→-Y`,
`Y→X`, `Z` fixed); four successive s-conjugations (and likewise four
sdg-conjugations) return every symbol with accumulated sign `+1`, and
s- and sdg-conjugation invert each other. -/
theorem claim_C7 :
    gk_table .s Pauli.X = (Pauli.Y, 1) ∧
    gk_table .s Pauli.Y = (Pauli.X, -1) ∧
    gk_table .s Pauli.Z = (Pauli.Z, 1) ∧
    gk_table .sdg Pauli.X = (Pauli.Y, -1) ∧
    gk_table .sdg Pauli.Y = (Pauli.X, 1) ∧
    gk_table .sdg Pauli.Z = (Pauli.Z, 1) ∧
    (∀ p : Pauli,
      conjStep .s (conjStep .s (conjStep .s (conjStep .s (p, 1)))) = (p, 1) ∧
      conjStep .sdg (conjStep .sdg (conjStep .sdg (conjStep .sdg (p, 1)))) = (p, 1) ∧
      conjStep .s (conjStep .sdg (p, 1)) = (p, 1) ∧
      conjStep .sdg (conjStep .s (p, 1)) = (p, 1)) := by
  decide

/-! ### Claim C1: aliasing of the deterministic measurement -/

/-- Generic preservation of a predicate along a left fold. -/
lemma foldl_invariant {α : Type _} {β : Type _} (f : α → β → α) (P : α → Prop)
    (h : ∀ a b, P a → P (f a b)) : ∀ (l : List β) (a : α), P a → P (l.foldl f a) := by
  intro l
  induction l with
  | nil => intro a ha; exact ha
  | cons b bs ih => intro a ha; exact ih (f a b) (h a b ha)

/-- Folding in-place combinations over a list of indices never changes
the length of the stabilizer list. -/
lemma foldl_set_length (x0 : Nat) :
    ∀ (rest : List Nat) (c : List Stabilizer),
      (rest.foldl (fun c j => c.set j ((getSt c j).mulVal (getSt c x0))) c).length
        = c.length := by
  intro rest
  induction rest with
  | nil => intro c; rfl
  | cons j js ih => intro c; rw [List.foldl_cons, ih, List.length_set]

/-- Success of `Stabilizer.mul` determines the combined value. -/
lemma mul_some_eq (a b v : Stabilizer) (h : a.mul b = some v) :
    v = a.mulVal b := by
  unfold Stabilizer.mul at h
  by_cases hc : mulPhase a b = -2 ∨ mulPhase a b = 0 ∨ mulPhase a b = 2
  · rw [if_pos hc] at h
    injection h with h1
    exact h1.symm
  · rw [if_neg hc] at h
    exact Option.noConfusion h

/-- Generic preservation of a predicate along a monadic left fold. -/
lemma foldlM_invariant {α : Type _} {β : Type _} (f : α → β → Option α)
    (P : α → Prop) (h : ∀ a b a', f a b = some a' → P a → P a') :
    ∀ (l : List β) (a a'), l.foldlM f a = some a' → P a → P a' := by
  intro l
  induction l with
  | nil =>
      intro a a' he ha
      injection he with h1
      exact h1 ▸ ha
  | cons b bs ih =>
      intro a a' he ha
      rw [List.foldlM_cons] at he
      cases hf : f a b with
      | none => rw [hf] at he; exact Option.noConfusion he
      | some a1 =>
          rw [hf] at he
          exact ih a1 a' he (h a b a1 hf ha)

/-- A successful in-place combination fold computes the pure fold of the
combined values. -/
lemma foldlM_rowops_eq (x0 : Nat) : ∀ (rest : List Nat) (c c' : List Stabilizer),
    rest.foldlM
      (fun c j => ((getSt c j).mul (getSt c x0)).map (fun v => c.set j v)) c
      = some c' →
    c' = rest.foldl (fun c j => c.set j ((getSt c j).mulVal (getSt c x0))) c := by
  intro rest
  induction rest with
  | nil =>
      intro c c' h
      injection h with h1
      exact h1.symm
  | cons j js ih =>
      intro c c' h
      rw [List.foldlM_cons] at h
      cases hm : (getSt c j).mul (getSt c x0) with
      | none => rw [hm] at h; exact Option.noConfusion h
      | some v =>
          rw [hm] at h
          have hv := mul_some_eq _ _ _ hm
          rw [List.foldl_cons, ← hv]
          exact ih (c.set j v) c' h

/-- `trans` preserves the length of the caller's stabilizer list. -/
lemma transStep_length (cw cw' : List Stabilizer × List Nat) (xs : List Nat)
    (h : transStep cw xs = some cw') : cw'.1.length = cw.1.length := by
  cases xs with
  | nil =>
      injection h with h1
      rw [← h1]
  | cons x0 rest =>
      have h2 : (rest.foldlM
          (fun c j => ((getSt c j).mul (getSt c x0)).map (fun v => c.set j v))
          cw.1).map (fun c' => (c', cw.2.erase x0)) = some cw' := h
      cases hf : rest.foldlM
          (fun c j => ((getSt c j).mul (getSt c x0)).map (fun v => c.set j v))
          cw.1 with
      | none => rw [hf] at h2; exact Option.noConfusion h2
      | some c1 =>
          rw [hf] at h2
          have h3 : some (c1, cw.2.erase x0) = some cw' := h2
          injection h3 with h1
          rw [← h1]
          show c1.length = cw.1.length
          rw [foldlM_rowops_eq x0 rest cw.1 c1 hf]
          exact foldl_set_length x0 rest cw.1

/-- One elimination position preserves the length of the caller's list. -/
lemma elimPos_length (idx : Nat) (cw : List Stabilizer × List Nat) (i : Nat)
    (cw' : List Stabilizer × List Nat) (h : elimPos idx cw i = some cw') :
    cw'.1.length = cw.1.length := by
  unfold elimPos at h
  by_cases hi : i = idx
  · rw [if_pos hi] at h
    injection h with h1
    rw [← h1]
  · rw [if_neg hi] at h
    cases h1 : transStep cw
        (cw.2.filter (fun j => decide (stabAt cw.1 j i = X))) with
    | none => rw [h1] at h; exact Option.noConfusion h
    | some cw1 =>
        rw [h1] at h
        have h' : (transStep cw1
            (cw1.2.filter (fun j => decide (stabAt cw1.1 j i = Y)))).bind
            (fun cw2 => transStep cw2
              (cw2.2.filter (fun j => decide (stabAt cw2.1 j i = Z))))
              = some cw' := h
        cases h2 : transStep cw1
            (cw1.2.filter (fun j => decide (stabAt cw1.1 j i = Y))) with
        | none => rw [h2] at h'; exact Option.noConfusion h'
        | some cw2 =>
            rw [h2] at h'
            have h3 : transStep cw2
                (cw2.2.filter (fun j => decide (stabAt cw2.1 j i = Z)))
                  = some cw' := h'
            rw [transStep_length cw2 cw' _ h3,
              transStep_length cw1 cw2 _ h2,
              transStep_length cw cw1 _ h1]

/-- C1 counterexample: for the tableau `[ZZ(+1), IZ(+1)]` and `idx = 0`
no generator has `X` or `Y` at `idx`, yet the deterministic measurement
rewrites the caller's second stabilizer from `IZ(+1)` to `ZI(+1)` — the
shallow copy `stabilizers[:]` shares the `Stabilizer` objects, and
`st *= xs[0]` mutates them in place. -/
theorem claim_C1_cex :
    ((List.range 2).filter
        (fun j => decide (stabAt [⟨[Z, Z], 1⟩, ⟨[I, Z], 1⟩] j 0 = X ∨
                          stabAt [⟨[Z, Z], 1⟩, ⟨[I, Z], 1⟩] j 0 = Y)) = []) ∧
    meas_all_comm 0 [⟨[Z, Z], 1⟩, ⟨[I, Z], 1⟩]
      = some (false, [⟨[Z, Z], 1⟩, ⟨[Z, I], 1⟩]) ∧
    ([⟨[Z, Z], 1⟩, ⟨[Z, I], 1⟩] : List Stabilizer)
      ≠ [⟨[Z, Z], 1⟩, ⟨[I, Z], 1⟩] := by
  decide

/-- C1 (amended): when the deterministic measurement completes, the
caller's Tableau State keeps exactly its `n` generator slots — no
generator is added or removed — and when some generator already equals
the canonical `Z`-at-`idx` pattern the fast path leaves every
stabilizer unchanged; but because the list entries are shared objects
that the elimination combines in place, in the general path the
caller's pauli strings and signs may change. -/
theorem claim_C1 (idx : Nat) (sts : List Stabilizer) (b : Bool)
    (sts' : List Stabilizer)
    (h : meas_all_comm idx sts = some (b, sts')) :
    sts'.length = sts.length ∧
    (∀ chk, sts.find?
        (fun st => decide (st.pauli = (make_z_stabilizer idx sts.length).pauli))
          = some chk → sts' = sts) := by
  unfold meas_all_comm at h
  cases hf : sts.find?
      (fun st => decide (st.pauli = (make_z_stabilizer idx sts.length).pauli)) with
  | some chk =>
      simp only [hf] at h
      simp only [Option.some.injEq, Prod.mk.injEq] at h
      obtain ⟨-, h2⟩ := h
      subst h2
      exact ⟨rfl, fun _ _ => rfl⟩
  | none =>
      simp only [hf] at h
      cases hfold : (List.range sts.length).foldlM (elimPos idx)
          (sts, List.range sts.length) with
      | none => rw [hfold] at h; exact Option.noConfusion h
      | some cw =>
          rw [hfold] at h
          have hlen : cw.1.length = sts.length :=
            foldlM_invariant (elimPos idx) (fun cw => cw.1.length = sts.length)
              (fun a b a' ha hP => (elimPos_length idx a b a' ha).trans hP)
              (List.range sts.length) (sts, List.range sts.length) cw hfold rfl
          have h' : (match (cw.2.map (getSt cw.1)).find?
              (fun st => decide
                (st.pauli = (make_z_stabilizer idx sts.length).pauli)) with
            | some chk => some (decide (chk.sign = -1), cw.1)
            | none => none) = some (b, sts') := h
          cases hg : (cw.2.map (getSt cw.1)).find?
              (fun st => decide
                (st.pauli = (make_z_stabilizer idx sts.length).pauli)) with
          | some chk =>
              rw [hg] at h'
              simp only [Option.some.injEq, Prod.mk.injEq] at h'
              obtain ⟨-, h2⟩ := h'
              subst h2
              refine ⟨hlen, ?_⟩
              intro chk2 hchk2
              exact Option.noConfusion hchk2
          | none =>
              rw [hg] at h'
              exact Option.noConfusion h'

/-- Witness for C1 at a concrete input (fast-path case). -/
theorem claim_C1_witness :
    ([⟨[Z], 1⟩] : List Stabilizer).length = ([⟨[Z], 1⟩] : List Stabilizer).length ∧
    (∀ chk, ([⟨[Z], 1⟩] : List Stabilizer).find?
        (fun st => decide (st.pauli =
          (make_z_stabilizer 0 ([⟨[Z], 1⟩] : List Stabilizer).length).pauli))
          = some chk → ([⟨[Z], 1⟩] : List Stabilizer) = [⟨[Z], 1⟩]) :=
  claim_C1 0 [⟨[Z], 1⟩] false [⟨[Z], 1⟩] (by decide)

/-! ### Claim C8: option parsing of `run` -/

/-- C8: an unrecognized `returns` value makes `run` fail with the
`Unknown return type.` error before any shot executes (the result
carries no shot outcome at all), and the default shot count is 100 for
an omitted or `"shots"` returns option and 1 for `"stabilizers"`. -/
theorem claim_C8 :
    (∀ (rng : Nat → Rat) (gates : List Gate) (n : Nat) (shotsOpt : Option Nat)
        (s : String), s ≠ "shots" → s ≠ "stabilizers" →
        run rng gates n (some s) shotsOpt = .error "Unknown return type.") ∧
    parseReturns none none = .ok (.shots, 100) ∧
    parseReturns (some "shots") none = .ok (.shots, 100) ∧
    parseReturns (some "stabilizers") none = .ok (.stabilizers, 1) := by
  refine ⟨?_, rfl, rfl, rfl⟩
  intro rng gates n shotsOpt s h1 h2
  unfold run parseReturns
  simp [h1, h2]

/-- Witness for C8 at a concrete unknown `returns` value. -/
theorem claim_C8_witness :
    run (fun _ => 0) [] 1 (some "histogram") none
      = .error "Unknown return type." :=
  claim_C8.1 (fun _ => 0) [] 1 none "histogram" (by decide) (by decide)

/-! ### Claim C9: the deterministic flip X(0); measure(0) on one qubit -/

/-- One shot of `X(0); measure(0)` on a single qubit: the conjugation
flips the sign of the canonical `Z` generator and the deterministic fast
path reads it back as outcome `true`, consuming no randomness. -/
lemma runShot_x_measure (rng : Nat → Rat) (k : Nat) :
    runShot rng [Gate.x [0], Gate.measure [0]] 1 k
      = some (⟨[⟨[Z], -1⟩], [true]⟩, k) := rfl

/-- Every shot of `X(0); measure(0)` gives the same final context, for
any shot count and any random stream. -/
lemma runShots_x_measure (rng : Nat → Rat) :
    ∀ (m k : Nat), runShots rng [Gate.x [0], Gate.measure [0]] 1 m k
      = some (List.replicate m ⟨[⟨[Z], -1⟩], [true]⟩) := by
  intro m
  induction m with
  | zero => intro k; rfl
  | succ m ih =>
      intro k
      rw [runShots, runShot_x_measure]
      simp only [Option.some_bind, ih, Option.map_some]
      rfl

/-- C9: on one qubit, `X(0); measure(0)` returns the bit string `"1"` on
every shot, for every random stream and every shot count; the X
conjugation flips the canonical `Z` generator's sign to `-1` and the
deterministic fast path maps sign `-1` to outcome `true`. -/
theorem claim_C9 (rng : Nat → Rat) (shotsOpt : Option Nat) :
    run rng [Gate.x [0], Gate.measure [0]] 1 none shotsOpt
      = .ok (.shots (List.replicate (shotsOpt.getD 100) "1")) ∧
    (single_qubit_gate .x [0] (preprocess_run 1)).stabilizers = [⟨[Z], -1⟩] ∧
    meas_all_comm 0 [⟨[Z], -1⟩] = some (true, [⟨[Z], -1⟩]) := by
  refine ⟨?_, rfl, rfl⟩
  unfold run
  have hp : parseReturns none shotsOpt = .ok (.shots, shotsOpt.getD 100) := rfl
  simp only [hp, runShots_x_measure, List.map_replicate]
  rfl

/-! ### List access toolkit (getD / set) -/

/-- Writing at one index leaves other indices unchanged. -/
lemma getD_set_ne {α : Type _} {l : List α} {i j : Nat} (h : i ≠ j) (a d : α) :
    (l.set i a).getD j d = l.getD j d := by
  simp [List.getD_eq_getElem?_getD, List.getElem?_set_ne h]

/-- Reading back a written index. -/
lemma getD_set_self {α : Type _} {l : List α} {i : Nat} (h : i < l.length)
    (a d : α) : (l.set i a).getD i d = a := by
  simp [List.getD_eq_getElem?_getD, List.getElem?_set_self h]

/-- In range, the default of `getD` is irrelevant. -/
lemma getD_indep {α : Type _} {l : List α} {i : Nat} (h : i < l.length)
    (d d' : α) : l.getD i d = l.getD i d' := by
  rw [List.getD_eq_getElem _ _ h, List.getD_eq_getElem _ _ h]

/-- Writing back the value already present is a no-op. -/
lemma set_getD_self {α : Type _} :
    ∀ (l : List α) (i : Nat) (d : α), l.set i (l.getD i d) = l
  | [], _, _ => rfl
  | _ :: _, 0, _ => rfl
  | a :: as, i + 1, d => congrArg (a :: ·) (set_getD_self as i d)

/-- In-range `getD` values are members of the list. -/
lemma getD_mem {α : Type _} {l : List α} {i : Nat} (h : i < l.length) (d : α) :
    l.getD i d ∈ l := by
  rw [List.getD_eq_getElem _ _ h]
  exact List.getElem_mem h

/-! ### Claim C10: never-measured qubits read back as 0 -/

/-- Single-qubit gates leave the measured array untouched. -/
lemma single_qubit_gate_measured (g : SGate) :
    ∀ (ts : List Nat) (ctx : Ctx),
      (single_qubit_gate g ts ctx).measured = ctx.measured := by
  intro ts
  induction ts with
  | nil => intro ctx; rfl
  | cons t ts ih => intro ctx; exact ih ⟨ctx.stabilizers.map (conj1 g t), ctx.measured⟩

/-- CX gates leave the measured array untouched. -/
lemma gate_cx_measured :
    ∀ (ps : List (Nat × Nat)) (ctx : Ctx),
      (gate_cx ps ctx).measured = ctx.measured := by
  intro ps
  induction ps with
  | nil => intro ctx; rfl
  | cons p ps ih => intro ctx; exact ih ⟨ctx.stabilizers.map (conjCX p.1 p.2), ctx.measured⟩

/-- Measuring targets other than `idx` records nothing at `idx` and keeps
the measured array's length. -/
lemma gate_measure_measured (rng : Nat → Rat) (idx : Nat) :
    ∀ (ts : List Nat) (ck ck' : Ctx × Nat),
      gate_measure rng ts ck = some ck' → idx ∉ ts →
      ck'.1.measured.getD idx false = ck.1.measured.getD idx false ∧
      ck'.1.measured.length = ck.1.measured.length := by
  intro ts
  induction ts with
  | nil =>
      intro ck ck' h _
      injection h with h1
      subst h1
      exact ⟨rfl, rfl⟩
  | cons t ts ih =>
      intro ck ck' h hni
      rw [show gate_measure rng (t :: ts) ck
            = ((measure1 (rng ck.2) t ck.1.stabilizers).map
                (fun bsc => (⟨bsc.2.1, ck.1.measured.set t bsc.1⟩,
                  if bsc.2.2 then ck.2 + 1 else ck.2))).bind
              (fun ck1 => gate_measure rng ts ck1) from rfl] at h
      cases hm : measure1 (rng ck.2) t ck.1.stabilizers with
      | none => rw [hm] at h; exact Option.noConfusion h
      | some bsc =>
          rw [hm] at h
          have h2 : gate_measure rng ts ⟨⟨bsc.2.1, ck.1.measured.set t bsc.1⟩,
              if bsc.2.2 then ck.2 + 1 else ck.2⟩ = some ck' := h
          have hrest := ih ⟨⟨bsc.2.1, ck.1.measured.set t bsc.1⟩,
              if bsc.2.2 then ck.2 + 1 else ck.2⟩ ck' h2
            (fun hmem => hni (List.mem_cons_of_mem _ hmem))
          have hne : t ≠ idx := fun he => hni (he ▸ List.mem_cons_self _ _)
          constructor
          · rw [hrest.1]
            exact getD_set_ne hne _ _
          · rw [hrest.2]
            exact List.length_set ..

/-- Folding gates that never measure `idx` keeps `measured[idx] = false`
and the measured array's length. -/
lemma foldlM_gates_measured (rng : Nat → Rat) (idx n : Nat) :
    ∀ (gates : List Gate) (ck ck' : Ctx × Nat),
      gates.foldlM (fun ck g => applyGate rng g ck) ck = some ck' →
      (∀ ts, Gate.measure ts ∈ gates → idx ∉ ts) →
      ck.1.measured.getD idx false = false → ck.1.measured.length = n →
      ck'.1.measured.getD idx false = false ∧ ck'.1.measured.length = n := by
  intro gates
  induction gates with
  | nil =>
      intro ck ck' h _ h0 hlen
      injection h with h1
      subst h1
      exact ⟨h0, hlen⟩
  | cons g gs ih =>
      intro ck ck' h hg h0 hlen
      rw [List.foldlM_cons] at h
      cases ha : applyGate rng g ck with
      | none => rw [ha] at h; exact Option.noConfusion h
      | some ck1 =>
          rw [ha] at h
          have h1 : gs.foldlM (fun ck g => applyGate rng g ck) ck1 = some ck' := h
          have hg' : ∀ ts, Gate.measure ts ∈ gs → idx ∉ ts :=
            fun ts hts => hg ts (List.mem_cons_of_mem _ hts)
          have hstep : ck1.1.measured.getD idx false = false ∧
              ck1.1.measured.length = n := by
            cases g with
            | x ts => injection ha with ha1; rw [← ha1]
                      simpa [single_qubit_gate_measured] using And.intro h0 hlen
            | y ts => injection ha with ha1; rw [← ha1]
                      simpa [single_qubit_gate_measured] using And.intro h0 hlen
            | z ts => injection ha with ha1; rw [← ha1]
                      simpa [single_qubit_gate_measured] using And.intro h0 hlen
            | h ts => injection ha with ha1; rw [← ha1]
                      simpa [single_qubit_gate_measured] using And.intro h0 hlen
            | s ts => injection ha with ha1; rw [← ha1]
                      simpa [single_qubit_gate_measured] using And.intro h0 hlen
            | sdg ts => injection ha with ha1; rw [← ha1]
                        simpa [single_qubit_gate_measured] using And.intro h0 hlen
            | cx ps => injection ha with ha1; rw [← ha1]
                       simpa [gate_cx_measured] using And.intro h0 hlen
            | measure ts =>
                have hmm := gate_measure_measured rng idx ts ck ck1 ha
                  (hg ts (List.mem_cons_self _ _))
                exact ⟨hmm.1.trans h0, hmm.2.trans hlen⟩
          exact ih ck1 ck' h1 hg' hstep.1 hstep.2

/-- One shot of a circuit that never measures `idx` ends with
`measured[idx] = false` and a measured array of length `n`. -/
lemma runShot_measured (rng : Nat → Rat) (idx : Nat) (gates : List Gate)
    (n k : Nat) (ck' : Ctx × Nat)
    (h : runShot rng gates n k = some ck')
    (hg : ∀ ts, Gate.measure ts ∈ gates → idx ∉ ts) :
    ck'.1.measured.getD idx false = false ∧ ck'.1.measured.length = n := by
  refine foldlM_gates_measured rng idx n gates (preprocess_run n, k) ck' h hg ?_ ?_
  · show (List.replicate n false).getD idx false = false
    rw [List.getD_eq_getElem?_getD, List.getElem?_replicate]
    split <;> rfl
  · simp [preprocess_run]

/-- Every context produced by the shots loop of a circuit that never
measures `idx` has `measured[idx] = false` and length `n`. -/
lemma runShots_measured (rng : Nat → Rat) (idx : Nat) (gates : List Gate)
    (n : Nat) (hg : ∀ ts, Gate.measure ts ∈ gates → idx ∉ ts) :
    ∀ (m k : Nat) (ctxs : List Ctx),
      runShots rng gates n m k = some ctxs →
      ∀ ctx ∈ ctxs, ctx.measured.getD idx false = false ∧
        ctx.measured.length = n := by
  intro m
  induction m with
  | zero =>
      intro k ctxs h ctx hmem
      injection h with h1
      subst h1
      exact absurd hmem (List.not_mem_nil _)
  | succ m ih =>
      intro k ctxs h ctx hmem
      rw [runShots] at h
      cases hs : runShot rng gates n k with
      | none => rw [hs] at h; exact Option.noConfusion h
      | some ck =>
          rw [hs] at h
          have h2 : (runShots rng gates n m ck.2).map
              (fun rest => ck.1 :: rest) = some ctxs := h
          cases hr : runShots rng gates n m ck.2 with
          | none => rw [hr] at h2; exact Option.noConfusion h2
          | some rest =>
              rw [hr] at h2
              injection h2 with h1
              subst h1
              cases hmem with
              | head => exact runShot_measured rng idx gates n k ck hs hg
              | tail _ hmem' => exact ih ck.2 rest hr ctx hmem'

/-- C10: under `returns = "shots"` (explicit or defaulted), a qubit index
below the qubit count that is never a measure target reads back as the
character `0` at its position in every returned bit string. -/
theorem claim_C10 (rng : Nat → Rat) (gates : List Gate) (n : Nat)
    (returnsOpt : Option String) (shotsOpt : Option Nat) (idx : Nat)
    (results : List String)
    (hret : returnsOpt = none ∨ returnsOpt = some "shots")
    (hidx : idx < n)
    (hnm : ∀ ts, Gate.measure ts ∈ gates → idx ∉ ts)
    (hrun : run rng gates n returnsOpt shotsOpt = .ok (.shots results)) :
    ∀ r ∈ results, r.data.getD idx '1' = '0' := by
  intro r hr
  have hparse : parseReturns returnsOpt shotsOpt = .ok (.shots, shotsOpt.getD 100) := by
    rcases hret with h | h <;> subst h <;> rfl
  unfold run at hrun
  rw [hparse] at hrun
  have hrun2 : (match runShots rng gates n (shotsOpt.getD 100) 0 with
      | none => (.error "Backend is buggy." : Except String RunResult)
      | some ctxs => .ok (.shots (ctxs.map postprocess_shots)))
        = .ok (.shots results) := hrun
  cases hs : runShots rng gates n (shotsOpt.getD 100) 0 with
  | none => rw [hs] at hrun2; exact Except.noConfusion hrun2
  | some ctxs =>
      rw [hs] at hrun2
      have hres : results = ctxs.map postprocess_shots := by
        injection Except.ok.inj hrun2 with h1
        exact h1.symm
      rw [hres] at hr
      obtain ⟨ctx, hctx, hpp⟩ := List.mem_map.1 hr
      have hm := runShots_measured rng idx gates n hnm _ 0 ctxs hs ctx hctx
      rw [← hpp]
      show (ctx.measured.map (fun b => if b then '1' else '0')).getD idx '1' = '0'
      have hlt : idx < (ctx.measured.map (fun b => if b then '1' else '0')).length := by
        rw [List.length_map, hm.2]; exact hidx
      rw [List.getD_eq_getElem _ _ hlt, List.getElem_map]
      have : ctx.measured.getD idx false = false := hm.1
      rw [List.getD_eq_getElem _ _ (by rw [hm.2]; exact hidx)] at this
      rw [this]
      rfl

/-- Witness for C10: `X(0); measure(1)` on two qubits never measures
qubit 0, whose character is `0` in the single returned bit string. -/
theorem claim_C10_witness :
    (String.mk ['0', '0']).data.getD 0 '1' = '0' :=
  claim_C10 (fun _ => 0) [Gate.x [0], Gate.measure [1]] 2 (some "shots")
    (some 1) 0 [String.mk ['0', '0']] (Or.inr rfl) (by decide)
    (by intro ts hts
        simp only [List.mem_cons, List.not_mem_nil, or_false] at hts
        rcases hts with h | h
        · exact Gate.noConfusion h
        · injection h with h'
          subst h'
          decide)
    (by rfl)
    (String.mk ['0', '0']) (List.mem_singleton.mpr rfl)

/-! ### Pauli-string algebra: symbol level -/

/-- The product symbol is commutative (only phases differ by order). -/
lemma pmulSym_comm : ∀ a b : Pauli, pmulSym a b = pmulSym b a := by decide

/-- The product symbol is associative. -/
lemma pmulSym_assoc : ∀ a b c : Pauli,
    pmulSym (pmulSym a b) c = pmulSym a (pmulSym b c) := by decide

/-- Every symbol squares to the identity. -/
lemma pmulSym_self : ∀ a : Pauli, pmulSym a a = I := by decide

/-- Identity symbol is a left unit. -/
lemma pmulSym_I : ∀ a : Pauli, pmulSym I a = a := by decide

/-- Anticommutation of symbols is symmetric. -/
lemma acSym_symm : ∀ a b : Pauli, acSym a b = acSym b a := by decide

/-- A symbol commutes with itself. -/
lemma acSym_self : ∀ a : Pauli, acSym a a = false := by decide

/-- Anticommutation is additive over symbol products (GF(2) bilinearity). -/
lemma acSym_mul_left : ∀ a b c : Pauli,
    acSym (pmulSym a b) c = xor (acSym a c) (acSym b c) := by decide

/-- The identity symbol commutes with everything. -/
lemma acSym_I : ∀ a : Pauli, acSym I a = false := by decide

/-! ### Pauli-string algebra: string level -/

/-- Length of a position-wise product. -/
lemma strMul_length (a b : List Pauli) :
    (strMul a b).length = min a.length b.length := List.length_zipWith ..

/-- String products commute position-wise. -/
lemma strMul_comm : ∀ a b : List Pauli, strMul a b = strMul b a := by
  intro a
  induction a with
  | nil => intro b; cases b <;> rfl
  | cons x xs ih =>
      intro b
      cases b with
      | nil => rfl
      | cons y ys =>
          show pmulSym x y :: strMul xs ys = pmulSym y x :: strMul ys xs
          rw [pmulSym_comm, ih]

/-- String products associate position-wise. -/
lemma strMul_assoc : ∀ a b c : List Pauli,
    strMul (strMul a b) c = strMul a (strMul b c) := by
  intro a
  induction a with
  | nil => intro b c; rfl
  | cons x xs ih =>
      intro b c
      cases b with
      | nil => rfl
      | cons y ys =>
          cases c with
          | nil => rfl
          | cons z zs =>
              show pmulSym (pmulSym x y) z :: strMul (strMul xs ys) zs
                = pmulSym x (pmulSym y z) :: strMul xs (strMul ys zs)
              rw [pmulSym_assoc, ih]

/-- A string times itself is the all-identity string. -/
lemma strMul_self (a : List Pauli) : strMul a a = idStr a.length :=
  zipWith_pmulSym_self a

/-- The all-identity string is a left unit on strings of matching length. -/
lemma strMul_idStr (a : List Pauli) : strMul (idStr a.length) a = a := by
  induction a with
  | nil => rfl
  | cons x xs ih =>
      show pmulSym I x :: strMul (idStr xs.length) xs = x :: xs
      rw [pmulSym_I, ih]

/-- Left cancellation in characteristic two. -/
lemma strMul_cancel (a b : List Pauli) (h : a.length = b.length) :
    strMul a (strMul a b) = b := by
  rw [← strMul_assoc, strMul_self, h, strMul_idStr]

/-- Left commutation shuffle for string products. -/
lemma strMul_left_comm (a b c : List Pauli) :
    strMul a (strMul b c) = strMul b (strMul a c) := by
  rw [← strMul_assoc, strMul_comm a b, strMul_assoc]

/-- Anticommutation parity of strings is symmetric. -/
lemma acParity_symm : ∀ a b : List Pauli, acParity a b = acParity b a := by
  intro a
  induction a with
  | nil => intro b; cases b <;> rfl
  | cons x xs ih =>
      intro b
      cases b with
      | nil => rfl
      | cons y ys =>
          show xor (acSym x y) (acParity xs ys) = xor (acSym y x) (acParity ys xs)
          rw [acSym_symm, ih]

/-- A string commutes with itself. -/
lemma acParity_self (a : List Pauli) : acParity a a = false := by
  induction a with
  | nil => rfl
  | cons x xs ih =>
      show xor (acSym x x) (acParity xs xs) = false
      rw [acSym_self, ih]
      rfl

/-- The all-identity string commutes with every string. -/
lemma acParity_idStr (n : Nat) : ∀ a : List Pauli, acParity (idStr n) a = false := by
  induction n with
  | zero => intro a; rfl
  | succ n ih =>
      intro a
      cases a with
      | nil => rfl
      | cons x xs =>
          show xor (acSym I x) (acParity (idStr n) xs) = false
          rw [acSym_I, ih]
          rfl

/-- Anticommutation parity is additive over string products in the left
argument, for strings of matching length. -/
lemma acParity_mul_left : ∀ (b c a : List Pauli), b.length = c.length →
    acParity (strMul b c) a = xor (acParity b a) (acParity c a) := by
  intro b
  induction b with
  | nil =>
      intro c a h
      cases c with
      | nil => cases a <;> rfl
      | cons y ys => exact absurd h (by simp)
  | cons x xs ih =>
      intro c a h
      cases c with
      | nil => exact absurd h (by simp)
      | cons y ys =>
          cases a with
          | nil => rfl
          | cons z zs =>
              show xor (acSym (pmulSym x y) z) (acParity (strMul xs ys) zs)
                = xor (xor (acSym x z) (acParity xs zs))
                      (xor (acSym y z) (acParity ys zs))
              rw [acSym_mul_left, ih ys zs (by simpa using h)]
              cases acSym x z <;> cases acSym y z <;>
                cases acParity xs zs <;> cases acParity ys zs <;> rfl

/-! ### Pauli-string algebra: positions and updates -/

/-- Reading a position of a string product. -/
lemma getD_strMul : ∀ (a b : List Pauli) (i : Nat), i < a.length → i < b.length →
    (strMul a b).getD i I = pmulSym (a.getD i I) (b.getD i I) := by
  intro a
  induction a with
  | nil => intro b i h _; exact absurd h (by simp)
  | cons x xs ih =>
      intro b i h1 h2
      cases b with
      | nil => exact absurd h2 (by simp)
      | cons y ys =>
          cases i with
          | zero => rfl
          | succ i =>
              show (strMul xs ys).getD i I = pmulSym (xs.getD i I) (ys.getD i I)
              exact ih ys i (by simpa using h1) (by simpa using h2)

/-- Setting the same position on both factors of a string product. -/
lemma strMul_set_set : ∀ (a b : List Pauli) (i : Nat) (x y : Pauli),
    strMul (a.set i x) (b.set i y) = (strMul a b).set i (pmulSym x y) := by
  intro a
  induction a with
  | nil => intro b i x y; rfl
  | cons p ps ih =>
      intro b i x y
      cases b with
      | nil => cases i <;> rfl
      | cons q qs =>
          cases i with
          | zero => rfl
          | succ i =>
              show pmulSym p q :: strMul (ps.set i x) (qs.set i y)
                = pmulSym p q :: (strMul ps qs).set i (pmulSym x y)
              rw [ih]

/-- Anticommutation parity after a simultaneous in-range single-position
update on both strings. -/
lemma acParity_set_set : ∀ (a b : List Pauli) (i : Nat) (x y : Pauli),
    a.length = b.length → i < a.length →
    acParity (a.set i x) (b.set i y)
      = xor (acParity a b) (xor (acSym (a.getD i I) (b.getD i I)) (acSym x y)) := by
  intro a
  induction a with
  | nil => intro b i x y _ h; exact absurd h (by simp)
  | cons p ps ih =>
      intro b i x y hlen hi
      cases b with
      | nil => exact absurd hlen (by simp)
      | cons q qs =>
          cases i with
          | zero =>
              show xor (acSym x y) (acParity ps qs)
                = xor (xor (acSym p q) (acParity ps qs))
                      (xor (acSym p q) (acSym x y))
              cases acSym x y <;> cases acSym p q <;> cases acParity ps qs <;> rfl
          | succ i =>
              show xor (acSym p q) (acParity (ps.set i x) (qs.set i y))
                = xor (xor (acSym p q) (acParity ps qs))
                      (xor (acSym (ps.getD i I) (qs.getD i I)) (acSym x y))
              rw [ih qs i x y (by simpa using hlen) (by simpa using hi)]
              cases acSym p q <;>
                cases acParity ps qs <;>
                cases acSym (ps.getD i I) (qs.getD i I) <;>
                cases acSym x y <;> rfl

/-! ### Subset products and linear independence -/

/-- Members of `allSels n` are exactly the boolean vectors of length `n`. -/
lemma mem_allSels : ∀ (n : Nat) (sel : List Bool), sel ∈ allSels n ↔ sel.length = n := by
  intro n
  induction n with
  | zero =>
      intro sel
      constructor
      · intro h
        cases h with
        | head => rfl
        | tail _ h => exact absurd h (List.not_mem_nil _)
      · intro h
        cases sel with
        | nil => exact List.mem_cons_self _ _
        | cons b bs => exact absurd h (by simp)
  | succ n ih =>
      intro sel
      constructor
      · intro h
        rcases List.mem_append.1 h with h | h <;>
          · obtain ⟨sel', hmem, he⟩ := List.mem_map.1 h
            subst he
            simpa using (ih sel').1 hmem
      · intro h
        cases sel with
        | nil => exact absurd h (by simp)
        | cons b bs =>
            have hb : bs ∈ allSels n := (ih bs).2 (by simpa using h)
            cases b with
            | false =>
                exact List.mem_append.2 (Or.inl (List.mem_map.2 ⟨bs, hb, rfl⟩))
            | true =>
                exact List.mem_append.2 (Or.inr (List.mem_map.2 ⟨bs, hb, rfl⟩))

/-- A subset product of strings of length `n` has length `n`. -/
lemma maskProd_length : ∀ (sel : List Bool) (ps : List (List Pauli)) (n : Nat),
    (∀ p ∈ ps, p.length = n) → (maskProd sel ps n).length = n := by
  intro sel
  induction sel with
  | nil => intro ps n _; simp [maskProd, idStr]
  | cons b bs ih =>
      intro ps n hps
      cases ps with
      | nil => simp [maskProd, idStr]
      | cons p ps' =>
          have hrec := ih ps' n (fun q hq => hps q (List.mem_cons_of_mem _ hq))
          cases b with
          | false => exact hrec
          | true =>
              show (strMul p (maskProd bs ps' n)).length = n
              rw [strMul_length, hrec, hps p (List.mem_cons_self _ _)]
              exact Nat.min_self n

/-- Setting an unselected row does not change a subset product. -/
lemma maskProd_set_false : ∀ (sel : List Bool) (ps : List (List Pauli))
    (n j : Nat) (v : List Pauli), sel.getD j false = false →
    maskProd sel (ps.set j v) n = maskProd sel ps n := by
  intro sel
  induction sel with
  | nil => intro ps n j v _; cases ps <;> cases j <;> rfl
  | cons b bs ih =>
      intro ps n j v hsel
      cases ps with
      | nil => cases j <;> rfl
      | cons p ps' =>
          cases j with
          | zero =>
              have hb : b = false := hsel
              subst hb
              rfl
          | succ j =>
              have : maskProd bs (ps'.set j v) n = maskProd bs ps' n :=
                ih ps' n j v hsel
              cases b with
              | false => exact this
              | true => show strMul p _ = strMul p _; rw [this]

/-- Setting a selected row multiplies the subset product by the new value
and by the old row (which cancels it, in characteristic two). -/
lemma maskProd_set_true : ∀ (sel : List Bool) (ps : List (List Pauli))
    (n j : Nat) (v : List Pauli), sel.getD j false = true → j < ps.length →
    (∀ p ∈ ps, p.length = n) →
    maskProd sel (ps.set j v) n
      = strMul v (strMul (ps.getD j (idStr n)) (maskProd sel ps n)) := by
  intro sel
  induction sel with
  | nil => intro ps n j v hsel _ _; exact absurd hsel (by simp)
  | cons b bs ih =>
      intro ps n j v hsel hj hps
      cases ps with
      | nil => exact absurd hj (by simp)
      | cons p ps' =>
          cases j with
          | zero =>
              have hb : b = true := hsel
              subst hb
              show strMul v (maskProd bs ps' n)
                = strMul v (strMul p (strMul p (maskProd bs ps' n)))
              rw [strMul_cancel p (maskProd bs ps' n)
                (by rw [maskProd_length bs ps' n
                      (fun q hq => hps q (List.mem_cons_of_mem _ hq))]
                    exact hps p (List.mem_cons_self _ _))]
          | succ j =>
              have hrec := ih ps' n j v hsel (by simpa using hj)
                (fun q hq => hps q (List.mem_cons_of_mem _ hq))
              cases b with
              | false => exact hrec
              | true =>
                  show strMul p (maskProd bs (ps'.set j v) n)
                    = strMul v (strMul (ps'.getD j (idStr n))
                        (strMul p (maskProd bs ps' n)))
                  rw [hrec, strMul_left_comm p v, strMul_left_comm p]

/-- Flipping one in-range selection bit multiplies the subset product by
that row. -/
lemma maskProd_flip : ∀ (sel : List Bool) (ps : List (List Pauli))
    (n j : Nat), j < sel.length → j < ps.length →
    (∀ p ∈ ps, p.length = n) →
    maskProd (sel.set j (!(sel.getD j false))) ps n
      = strMul (ps.getD j (idStr n)) (maskProd sel ps n) := by
  intro sel
  induction sel with
  | nil => intro ps n j h _ _; exact absurd h (by simp)
  | cons b bs ih =>
      intro ps n j hj hj' hps
      cases ps with
      | nil => exact absurd hj' (by simp)
      | cons p ps' =>
          cases j with
          | zero =>
              cases b with
              | false => rfl
              | true =>
                  show maskProd bs ps' n
                    = strMul p (strMul p (maskProd bs ps' n))
                  rw [strMul_cancel p (maskProd bs ps' n)
                    (by rw [maskProd_length bs ps' n
                          (fun q hq => hps q (List.mem_cons_of_mem _ hq))]
                        exact hps p (List.mem_cons_self _ _))]
          | succ j =>
              have hrec := ih ps' n j (by simpa using hj) (by simpa using hj')
                (fun q hq => hps q (List.mem_cons_of_mem _ hq))
              cases b with
              | false => exact hrec
              | true =>
                  show strMul p (maskProd (bs.set j (!(bs.getD j false))) ps' n)
                    = strMul (ps'.getD j (idStr n)) (strMul p (maskProd bs ps' n))
                  rw [hrec, strMul_left_comm]

/-- A subset product of strings all commuting with `g` commutes with `g`. -/
lemma acParity_maskProd : ∀ (sel : List Bool) (ps : List (List Pauli))
    (n : Nat) (g : List Pauli), (∀ p ∈ ps, acParity p g = false) →
    (∀ p ∈ ps, p.length = n) →
    acParity (maskProd sel ps n) g = false := by
  intro sel
  induction sel with
  | nil => intro ps n g _ _; exact acParity_idStr n g
  | cons b bs ih =>
      intro ps n g hcomm hps
      cases ps with
      | nil => exact acParity_idStr n g
      | cons p ps' =>
          have hrec := ih ps' n g
            (fun q hq => hcomm q (List.mem_cons_of_mem _ hq))
            (fun q hq => hps q (List.mem_cons_of_mem _ hq))
          cases b with
          | false => exact hrec
          | true =>
              show acParity (strMul p (maskProd bs ps' n)) g = false
              rw [acParity_mul_left p (maskProd bs ps' n) g
                (by rw [maskProd_length bs ps' n
                      (fun q hq => hps q (List.mem_cons_of_mem _ hq))]
                    exact hps p (List.mem_cons_self _ _)),
                hcomm p (List.mem_cons_self _ _), hrec]
              rfl

/-! ### Row operations preserve the tableau invariant -/

/-- Commutation of strings is symmetric. -/
lemma commuteB_symm (a b : List Pauli) : commuteB a b = commuteB b a := by
  unfold commuteB
  rw [acParity_symm]

/-- Reading the string list of a stabilizer list by index. -/
lemma strs_getD (c : List Stabilizer) (j : Nat) (d : List Pauli)
    (hj : j < c.length) : (strs c).getD j d = (getSt c j).pauli := by
  have hj' : j < (strs c).length := by simpa [strs] using hj
  rw [List.getD_eq_getElem _ _ hj']
  unfold strs
  rw [List.getElem_map]
  unfold getSt
  rw [List.getD_eq_getElem _ _ hj]

/-- In-range reads of a stabilizer list are members. -/
lemma getSt_mem (c : List Stabilizer) (j : Nat) (hj : j < c.length) :
    getSt c j ∈ c := getD_mem hj _

/-- Under well-formedness every in-range row string has length `n`. -/
lemma WF_strs_length (c : List Stabilizer) (hWF : WF c) (j : Nat)
    (d : List Pauli) (hj : j < c.length) :
    ((strs c).getD j d).length = c.length := by
  rw [strs_getD c j d hj]
  exact hWF _ (getSt_mem c j hj)

/-- A boolean list with a true entry has a true member. -/
lemma any_id_of_getD {l : List Bool} {j : Nat} (h : l.getD j false = true) :
    l.any id = true := by
  have hj : j < l.length := by
    by_contra h'
    rw [List.getD_eq_default _ _ (Nat.le_of_not_lt h')] at h
    exact Bool.noConfusion h
  rw [List.getD_eq_getElem _ _ hj] at h
  exact List.any_eq_true.2 ⟨_, List.getElem_mem hj, h⟩

/-- Commutation as vanishing anticommutation parity. -/
lemma commuteB_eq_true_iff (a b : List Pauli) :
    commuteB a b = true ↔ acParity a b = false := by
  unfold commuteB
  cases acParity a b <;> simp

/-- The elementary in-place combination `sts[j] *= sts[x0]` (for distinct
in-range `j`, `x0`) preserves the Tableau State invariant. -/
lemma invariant_rowop (c : List Stabilizer) (j x0 : Nat)
    (hj : j < c.length) (hx0 : x0 < c.length) (hne : j ≠ x0)
    (hinv : Invariant c) :
    Invariant (c.set j ((getSt c j).mulVal (getSt c x0))) := by
  obtain ⟨hWF, hComm, hIndep⟩ := hinv
  set n := c.length with hn
  set v := (getSt c j).mulVal (getSt c x0) with hv
  have hvp : v.pauli = strMul ((strs c).getD j []) ((strs c).getD x0 []) := by
    rw [strs_getD c j [] hj, strs_getD c x0 [] hx0]
    rfl
  have hlenj : ((strs c).getD j []).length = n := WF_strs_length c hWF j [] hj
  have hlenx : ((strs c).getD x0 []).length = n := WF_strs_length c hWF x0 [] hx0
  have hvlen : v.pauli.length = n := by
    rw [hvp, strMul_length, hlenj, hlenx]
    exact Nat.min_self n
  have hset_len : (c.set j v).length = n := by
    rw [List.length_set]
  have hstrs_set : strs (c.set j v) = (strs c).set j v.pauli := by
    unfold strs
    exact List.map_set
  have hps_len : (strs c).length = n := by simp [strs, hn]
  have hjps : j < (strs c).length := by rw [hps_len]; exact hj
  have hx0ps : x0 < (strs c).length := by rw [hps_len]; exact hx0
  have hWFstr : ∀ p ∈ strs c, p.length = n := by
    intro p hp
    obtain ⟨st, hst, he⟩ := List.mem_map.1 hp
    rw [← he]
    exact hWF st hst
  have hcomm_with_v : ∀ m, m < (strs c).length → m ≠ j →
      commuteB v.pauli ((strs c).getD m []) = true := by
    intro m hm hmj
    rw [commuteB_eq_true_iff, hvp,
      acParity_mul_left _ _ _ (by rw [hlenj, hlenx])]
    have h1 : acParity ((strs c).getD j []) ((strs c).getD m []) = false :=
      (commuteB_eq_true_iff _ _).1 (hComm j hjps m hm (fun he => hmj he.symm))
    have h2 : acParity ((strs c).getD x0 []) ((strs c).getD m []) = false := by
      by_cases hx0m : x0 = m
      · subst hx0m
        exact acParity_self _
      · exact (commuteB_eq_true_iff _ _).1 (hComm x0 hx0ps m hm hx0m)
    rw [h1, h2]
    rfl
  refine ⟨?_, ?_, ?_⟩
  · -- well-formedness
    intro st hst
    rw [hset_len]
    rcases List.mem_or_eq_of_mem_set hst with h | h
    · exact hWF st h
    · rw [h]
      exact hvlen
  · -- pairwise commutation
    intro i hi i' hi' hii
    rw [hstrs_set] at hi hi' ⊢
    rw [List.length_set] at hi hi'
    by_cases hij : i = j
    · have hi'j : i' ≠ j := fun he => hii (hij.trans he.symm)
      rw [hij, getD_set_self hjps, getD_set_ne (fun he => hi'j he.symm)]
      exact hcomm_with_v i' hi' hi'j
    · rw [getD_set_ne (fun he => hij he.symm)]
      by_cases hi'j : i' = j
      · rw [hi'j, getD_set_self hjps, commuteB_symm]
        exact hcomm_with_v i hi hij
      · rw [getD_set_ne (fun he => hi'j he.symm)]
        exact hComm i hi i' hi' hii
  · -- linear independence
    intro sel hsel hany
    rw [hstrs_set] at hsel ⊢
    rw [hset_len]
    have hsel_len : sel.length = (strs c).length := by
      have := (mem_allSels _ sel).1 hsel
      rwa [List.length_set] at this
    by_cases hb : sel.getD j false
    · -- the combined row is selected
      rw [maskProd_set_true sel (strs c) n j v.pauli hb hjps hWFstr]
      have hgd : (strs c).getD j (idStr n) = (strs c).getD j [] :=
        getD_indep hjps _ _
      rw [hgd, hvp]
      have hM : (maskProd sel (strs c) n).length = n :=
        maskProd_length sel (strs c) n hWFstr
      have hcalc : strMul (strMul ((strs c).getD j []) ((strs c).getD x0 []))
            (strMul ((strs c).getD j []) (maskProd sel (strs c) n))
          = strMul ((strs c).getD x0 []) (maskProd sel (strs c) n) := by
        rw [strMul_assoc,
          strMul_left_comm ((strs c).getD x0 []) ((strs c).getD j [])]
        exact strMul_cancel _ _
          (by rw [hlenj, strMul_length, hlenx, hM]
              exact (Nat.min_self n).symm)
      rw [hcalc]
      have hx0sel : x0 < sel.length := by rw [hsel_len]; exact hx0ps
      have hflip := maskProd_flip sel (strs c) n x0 hx0sel hx0ps hWFstr
      rw [getD_indep hx0ps (idStr n) []] at hflip
      rw [← hflip]
      refine hIndep _ ((mem_allSels _ _).2 (by rw [List.length_set, hsel_len, hps_len])) ?_
      refine any_id_of_getD (l := sel.set x0 (!(sel.getD x0 false))) (j := j) ?_
      rw [getD_set_ne (fun he => hne he.symm)]
      exact hb
    · -- the combined row is not selected
      rw [maskProd_set_false sel (strs c) n j v.pauli (Bool.eq_false_iff.2 hb)]
      exact hIndep sel ((mem_allSels _ _).2 (by rw [hsel_len, hps_len])) hany

/-! ### The canonical Z-at-idx pattern -/

/-- The canonical `Z`-at-`idx` pauli string on `n` qubits. -/
def zPat (idx n : Nat) : List Pauli := (make_z_stabilizer idx n).pauli

/-- Unfolding the canonical pattern one position. -/
lemma zPat_succ (idx n : Nat) : zPat (idx + 1) n = I :: zPat idx (n - 1) := by
  have h : n - (idx + 1) - 1 = n - 1 - idx - 1 := by omega
  simp [zPat, make_z_stabilizer, List.replicate_succ, h]

/-- The canonical pattern for position zero. -/
lemma zPat_zero (n : Nat) : zPat 0 n = Z :: List.replicate (n - 1) I := by
  simp [zPat, make_z_stabilizer]

/-- Length of the canonical pattern. -/
lemma zPat_length (idx n : Nat) (h : idx < n) : (zPat idx n).length = n := by
  simp [zPat, make_z_stabilizer]
  omega

/-- Reading the default entry of a replicate list. -/
lemma getD_replicate_self {α : Type _} (k i : Nat) (a : α) :
    (List.replicate k a).getD i a = a := by
  rw [List.getD_eq_getElem?_getD, List.getElem?_replicate]
  split <;> rfl

/-- The canonical pattern carries `Z` at `idx`. -/
lemma zPat_getD_idx : ∀ (idx n : Nat), idx < n → (zPat idx n).getD idx I = Z := by
  intro idx
  induction idx with
  | zero => intro n _; rw [zPat_zero]; rfl
  | succ idx ih =>
      intro n h
      rw [zPat_succ]
      show (zPat idx (n - 1)).getD idx I = Z
      exact ih (n - 1) (by omega)

/-- The canonical pattern carries `I` away from `idx`. -/
lemma zPat_getD_ne : ∀ (idx n m : Nat), m ≠ idx → (zPat idx n).getD m I = I := by
  intro idx
  induction idx with
  | zero =>
      intro n m hm
      rw [zPat_zero]
      cases m with
      | zero => exact absurd rfl hm
      | succ m => exact getD_replicate_self _ _ _
  | succ idx ih =>
      intro n m hm
      rw [zPat_succ]
      cases m with
      | zero => rfl
      | succ m => exact ih (n - 1) m (fun he => hm (by rw [he]))

/-- Anticommutation with the canonical pattern depends only on the
symbol at `idx`. -/
lemma acParity_zPat : ∀ (idx n : Nat) (s : List Pauli), s.length = n → idx < n →
    acParity (zPat idx n) s = acSym Z (s.getD idx I) := by
  intro idx
  induction idx with
  | zero =>
      intro n s hlen hidx
      cases s with
      | nil => rw [← hlen] at hidx; exact absurd hidx (by simp)
      | cons x xs =>
          rw [zPat_zero]
          show xor (acSym Z x) (acParity (List.replicate (n - 1) I) xs) = acSym Z x
          have : acParity (List.replicate (n - 1) I) xs = false := acParity_idStr _ _
          rw [this, Bool.xor_false]
  | succ idx ih =>
      intro n s hlen hidx
      cases s with
      | nil => rw [← hlen] at hidx; exact absurd hidx (by simp)
      | cons x xs =>
          rw [zPat_succ]
          show xor (acSym I x) (acParity (zPat idx (n - 1)) xs)
            = acSym Z (xs.getD idx I)
          rw [acSym_I, ih (n - 1) xs (by simp at hlen; omega) (by omega)]
          exact Bool.false_xor _

/-! ### Uniqueness of rows under independence -/

/-- The all-false selection gives the empty product. -/
lemma maskProd_replicate_false : ∀ (k : Nat) (ps : List (List Pauli)) (n : Nat),
    maskProd (List.replicate k false) ps n = idStr n := by
  intro k
  induction k with
  | zero => intro ps n; cases ps <;> rfl
  | succ k ih =>
      intro ps n
      cases ps with
      | nil => rfl
      | cons p ps' => exact ih ps' n

/-- The all-identity string is a right unit on strings of its length. -/
lemma strMul_idStr_right (a : List Pauli) (n : Nat) (h : a.length = n) :
    strMul a (idStr n) = a := by
  rw [strMul_comm, ← h, strMul_idStr]

/-- Distinct rows of an invariant tableau carry distinct pauli strings. -/
lemma indep_no_dup (c : List Stabilizer) (hinv : Invariant c) (i j : Nat)
    (hi : i < c.length) (hj : j < c.length) (hij : i ≠ j) :
    (getSt c i).pauli ≠ (getSt c j).pauli := by
  obtain ⟨hWF, -, hIndep⟩ := hinv
  set n := c.length with hn
  intro heq
  have hWFstr : ∀ p ∈ strs c, p.length = n := by
    intro p hp
    obtain ⟨st, hst, he⟩ := List.mem_map.1 hp
    rw [← he]
    exact hWF st hst
  have hps_len : (strs c).length = n := by simp [strs, hn]
  have hips : i < (strs c).length := by rw [hps_len]; exact hi
  have hjps : j < (strs c).length := by rw [hps_len]; exact hj
  -- the selection picking exactly rows i and j
  set sel0 : List Bool := List.replicate n false with hsel0
  set sel1 := sel0.set i (!(sel0.getD i false)) with hsel1
  set sel2 := sel1.set j (!(sel1.getD j false)) with hsel2
  have hsel0_len : sel0.length = n := List.length_replicate ..
  have hsel1_len : sel1.length = n := by rw [hsel1, List.length_set, hsel0_len]
  have hsel2_len : sel2.length = n := by rw [hsel2, List.length_set, hsel1_len]
  have hm0 : maskProd sel0 (strs c) n = idStr n := maskProd_replicate_false ..
  have hm1 : maskProd sel1 (strs c) n
      = strMul ((strs c).getD i (idStr n)) (maskProd sel0 (strs c) n) :=
    maskProd_flip sel0 (strs c) n i (by rw [hsel0_len]; exact hi) hips hWFstr
  have hm2 : maskProd sel2 (strs c) n
      = strMul ((strs c).getD j (idStr n)) (maskProd sel1 (strs c) n) :=
    maskProd_flip sel1 (strs c) n j (by rw [hsel1_len]; exact hj) hjps hWFstr
  have hgi : (strs c).getD i (idStr n) = (getSt c i).pauli := by
    rw [getD_indep hips (idStr n) [], strs_getD c i [] hi]
  have hgj : (strs c).getD j (idStr n) = (getSt c j).pauli := by
    rw [getD_indep hjps (idStr n) [], strs_getD c j [] hj]
  have hfinal : maskProd sel2 (strs c) n = idStr n := by
    rw [hm2, hm1, hm0, hgi, hgj, heq,
      strMul_idStr_right _ n (hWF _ (getSt_mem c j hj)), strMul_self,
      hWF _ (getSt_mem c j hj)]
  refine hIndep sel2 ((mem_allSels _ _).2 (by rw [hsel2_len, hps_len])) ?_ hfinal
  refine any_id_of_getD (l := sel2) (j := j) ?_
  rw [hsel2]
  rw [getD_set_self (by rw [hsel1_len]; exact hj)]
  rw [hsel1, getD_set_ne (fun he => hij he), hsel0]
  rw [getD_replicate_self]
  rfl

/-! ### In-place combination folds -/

/-- Reading an untouched index after a single write. -/
lemma getSt_set_ne (c : List Stabilizer) (j m : Nat) (v : Stabilizer)
    (h : j ≠ m) : getSt (c.set j v) m = getSt c m :=
  getD_set_ne h _ _

/-- Reading back a written index. -/
lemma getSt_set_self (c : List Stabilizer) (j : Nat) (v : Stabilizer)
    (h : j < c.length) : getSt (c.set j v) j = v :=
  getD_set_self h _ _

/-- Row-level description of the combination fold
`for st in rest: st *= sts[x0]` over distinct indices avoiding the pivot. -/
lemma foldl_rowops_spec (x0 : Nat) : ∀ (rest : List Nat) (c c' : List Stabilizer),
    c' = rest.foldl (fun c j => c.set j ((getSt c j).mulVal (getSt c x0))) c →
    rest.Nodup → x0 ∉ rest →
    c'.length = c.length ∧
    (∀ m, m ∉ rest → getSt c' m = getSt c m) ∧
    (∀ m, m ∈ rest → m < c.length →
      getSt c' m = (getSt c m).mulVal (getSt c x0)) := by
  intro rest
  induction rest with
  | nil =>
      intro c c' he _ _
      subst he
      exact ⟨rfl, fun _ _ => rfl, fun m hm => absurd hm (List.not_mem_nil m)⟩
  | cons j1 rest ih =>
      intro c c' he hnd hx0
      have hj1r : j1 ∉ rest := (List.nodup_cons.1 hnd).1
      have hndr : rest.Nodup := (List.nodup_cons.1 hnd).2
      have hx0r : x0 ∉ rest := fun h => hx0 (List.mem_cons_of_mem _ h)
      have hx0j1 : x0 ≠ j1 := fun h => hx0 (h ▸ List.mem_cons_self _ _)
      set c1 := c.set j1 ((getSt c j1).mulVal (getSt c x0)) with hc1
      have he1 : c' = rest.foldl
          (fun c j => c.set j ((getSt c j).mulVal (getSt c x0))) c1 := he
      obtain ⟨hl, hout, hin⟩ := ih c1 c' he1 hndr hx0r
      refine ⟨by rw [hl, hc1, List.length_set], ?_, ?_⟩
      · intro m hm
        have hm1 : m ∉ rest := fun h => hm (List.mem_cons_of_mem _ h)
        have hmj1 : j1 ≠ m := fun h => hm (h ▸ List.mem_cons_self _ _)
        rw [hout m hm1, hc1, getSt_set_ne c j1 m _ hmj1]
      · intro m hm hmc
        rcases List.mem_cons.1 hm with hmj | hmr
        · subst hmj
          rw [hout m hj1r, hc1, getSt_set_self c m _ hmc]
        · have hmj1 : j1 ≠ m := fun h => hj1r (h ▸ hmr)
          rw [hin m hmr (by rw [hc1, List.length_set]; exact hmc), hc1,
            getSt_set_ne c j1 m _ hmj1, getSt_set_ne c j1 x0 _ (fun h => hx0j1 h.symm)]

/-- The combination fold preserves the invariant and the length. -/
lemma foldl_rowops_invariant (x0 : Nat) : ∀ (rest : List Nat) (c : List Stabilizer),
    (∀ j ∈ rest, j < c.length ∧ j ≠ x0) → x0 < c.length → Invariant c →
    Invariant (rest.foldl (fun c j => c.set j ((getSt c j).mulVal (getSt c x0))) c) ∧
    (rest.foldl (fun c j => c.set j ((getSt c j).mulVal (getSt c x0))) c).length
      = c.length := by
  intro rest
  induction rest with
  | nil => intro c _ _ hinv; exact ⟨hinv, rfl⟩
  | cons j1 rest ih =>
      intro c hmem hx0 hinv
      have hj1 := hmem j1 (List.mem_cons_self _ _)
      set c1 := c.set j1 ((getSt c j1).mulVal (getSt c x0)) with hc1
      have hinv1 : Invariant c1 := invariant_rowop c j1 x0 hj1.1 hx0 hj1.2 hinv
      have hlen1 : c1.length = c.length := by rw [hc1, List.length_set]
      have := ih c1
        (fun j hj => ⟨by rw [hlen1]; exact (hmem j (List.mem_cons_of_mem _ hj)).1,
          (hmem j (List.mem_cons_of_mem _ hj)).2⟩)
        (by rw [hlen1]; exact hx0) hinv1
      exact ⟨this.1, this.2.trans hlen1⟩

/-- Only `I` or `Z` in a fixed column. -/
def colIZ (idx : Nat) (c : List Stabilizer) : Prop :=
  ∀ m, m < c.length → stabAt c m idx = I ∨ stabAt c m idx = Z

/-- A row operation keeps an all-`I`/`Z` column all-`I`/`Z`. -/
lemma colIZ_rowop (c : List Stabilizer) (j x0 idx : Nat)
    (hj : j < c.length) (hx0 : x0 < c.length) (hWF : WF c)
    (hIZ : colIZ idx c) :
    colIZ idx (c.set j ((getSt c j).mulVal (getSt c x0))) := by
  intro m hm
  rw [List.length_set] at hm
  by_cases hmj : m = j
  · subst hmj
    unfold stabAt
    rw [getSt_set_self c m _ hm]
    show ((getSt c m).mulVal (getSt c x0)).pauli.getD idx I = I ∨
      ((getSt c m).mulVal (getSt c x0)).pauli.getD idx I = Z
    have hmul : ((getSt c m).mulVal (getSt c x0)).pauli
        = strMul (getSt c m).pauli (getSt c x0).pauli := rfl
    rw [hmul]
    have hla : (getSt c m).pauli.length = c.length := hWF _ (getSt_mem c m hm)
    have hlb : (getSt c x0).pauli.length = c.length := hWF _ (getSt_mem c x0 hx0)
    by_cases hidx : idx < c.length
    · rw [getD_strMul _ _ idx (by rw [hla]; exact hidx) (by rw [hlb]; exact hidx)]
      rcases hIZ m hm with h1 | h1 <;> rcases hIZ x0 hx0 with h2 | h2 <;>
        unfold stabAt at h1 h2 <;> rw [h1, h2] <;> simp [pmulSym, pmul]
    · rw [List.getD_eq_default]
      · exact Or.inl rfl
      · rw [strMul_length, hla, hlb, Nat.min_self]
        exact Nat.le_of_not_lt hidx
  · unfold stabAt
    rw [getSt_set_ne c j m _ (fun h => hmj h.symm)]
    exact hIZ m hm

/-- The combination fold preserves invariant, column shape and length. -/
lemma foldl_rowops_elim (x0 idx : Nat) : ∀ (rest : List Nat) (c : List Stabilizer),
    (∀ j ∈ rest, j < c.length ∧ j ≠ x0) → x0 < c.length → Invariant c →
    colIZ idx c →
    Invariant (rest.foldl (fun c j => c.set j ((getSt c j).mulVal (getSt c x0))) c) ∧
    colIZ idx (rest.foldl (fun c j => c.set j ((getSt c j).mulVal (getSt c x0))) c) ∧
    (rest.foldl (fun c j => c.set j ((getSt c j).mulVal (getSt c x0))) c).length
      = c.length := by
  intro rest
  induction rest with
  | nil => intro c _ _ hinv hIZ; exact ⟨hinv, hIZ, rfl⟩
  | cons j1 rest ih =>
      intro c hmem hx0 hinv hIZ
      have hj1 := hmem j1 (List.mem_cons_self _ _)
      set c1 := c.set j1 ((getSt c j1).mulVal (getSt c x0)) with hc1
      have hinv1 : Invariant c1 := invariant_rowop c j1 x0 hj1.1 hx0 hj1.2 hinv
      have hIZ1 : colIZ idx c1 := colIZ_rowop c j1 x0 idx hj1.1 hx0 hinv.1 hIZ
      have hlen1 : c1.length = c.length := by rw [hc1, List.length_set]
      have := ih c1
        (fun j hj => ⟨by rw [hlen1]; exact (hmem j (List.mem_cons_of_mem _ hj)).1,
          (hmem j (List.mem_cons_of_mem _ hj)).2⟩)
        (by rw [hlen1]; exact hx0) hinv1 hIZ1
      exact ⟨this.1, this.2.1, this.2.2.trans hlen1⟩

/-! ### The elimination pass of `_meas_all_comm` -/

/-- Working-list condition during elimination: distinct in-range indices. -/
def WInv (n : Nat) (cw : List Stabilizer × List Nat) : Prop :=
  cw.2.Nodup ∧ (∀ j ∈ cw.2, j < n)

/-- Full elimination-state condition. -/
def ElimInv (n idx : Nat) (cw : List Stabilizer × List Nat) : Prop :=
  WInv n cw ∧ cw.1.length = n ∧ Invariant cw.1 ∧ colIZ idx cw.1

/-- `trans` preserves the elimination-state condition when fed a
duplicate-free sublist of the working list and it completes. -/
lemma transStep_pres (n idx : Nat) (cw : List Stabilizer × List Nat)
    (xs : List Nat) (cw' : List Stabilizer × List Nat)
    (hxs_nd : xs.Nodup) (hsub : ∀ j ∈ xs, j ∈ cw.2)
    (hE : ElimInv n idx cw) (h : transStep cw xs = some cw') :
    ElimInv n idx cw' := by
  obtain ⟨⟨hnd, hmem⟩, hlen, hinv, hIZ⟩ := hE
  cases xs with
  | nil =>
      injection h with h1
      rw [← h1]
      exact ⟨⟨hnd, hmem⟩, hlen, hinv, hIZ⟩
  | cons x0 rest =>
      have h0 : (rest.foldlM
          (fun c j => ((getSt c j).mul (getSt c x0)).map (fun v => c.set j v))
          cw.1).map (fun c' => (c', cw.2.erase x0)) = some cw' := h
      cases hf : rest.foldlM
          (fun c j => ((getSt c j).mul (getSt c x0)).map (fun v => c.set j v))
          cw.1 with
      | none => rw [hf] at h0; exact Option.noConfusion h0
      | some c1 =>
          rw [hf] at h0
          have h2 : some (c1, cw.2.erase x0) = some cw' := h0
          injection h2 with h1
          rw [← h1]
          have hc1 : c1 = rest.foldl
              (fun c j => c.set j ((getSt c j).mulVal (getSt c x0))) cw.1 :=
            foldlM_rowops_eq x0 rest cw.1 c1 hf
          have hx0n : x0 < n := hmem x0 (hsub x0 (List.mem_cons_self _ _))
          have hrest : ∀ j ∈ rest, j < cw.1.length ∧ j ≠ x0 := by
            intro j hj
            refine ⟨by rw [hlen]
                       exact hmem j (hsub j (List.mem_cons_of_mem _ hj)), ?_⟩
            intro he
            exact (List.nodup_cons.1 hxs_nd).1 (he ▸ hj)
          have hfold := foldl_rowops_elim x0 idx rest cw.1 hrest
            (by rw [hlen]; exact hx0n) hinv hIZ
          rw [hc1]
          refine ⟨⟨hnd.erase x0, ?_⟩, hfold.2.2.trans hlen, hfold.1, hfold.2.1⟩
          intro j hj
          exact hmem j (List.mem_of_mem_erase hj)

/-- One completed position of the elimination loop preserves the state
condition. -/
lemma elimPos_pres (n idx : Nat) (cw : List Stabilizer × List Nat) (i : Nat)
    (cw' : List Stabilizer × List Nat) (hE : ElimInv n idx cw)
    (h : elimPos idx cw i = some cw') : ElimInv n idx cw' := by
  unfold elimPos at h
  by_cases hi : i = idx
  · rw [if_pos hi] at h
    injection h with h1
    rw [← h1]
    exact hE
  · rw [if_neg hi] at h
    cases h1 : transStep cw
        (cw.2.filter (fun j => decide (stabAt cw.1 j i = X))) with
    | none => rw [h1] at h; exact Option.noConfusion h
    | some cw1 =>
        rw [h1] at h
        have hE1 : ElimInv n idx cw1 := transStep_pres n idx cw
          (cw.2.filter (fun j => decide (stabAt cw.1 j i = X))) cw1
          (hE.1.1.filter _) (fun j hj => List.mem_of_mem_filter hj) hE h1
        have h' : (transStep cw1
            (cw1.2.filter (fun j => decide (stabAt cw1.1 j i = Y)))).bind
            (fun cw2 => transStep cw2
              (cw2.2.filter (fun j => decide (stabAt cw2.1 j i = Z))))
              = some cw' := h
        cases h2 : transStep cw1
            (cw1.2.filter (fun j => decide (stabAt cw1.1 j i = Y))) with
        | none => rw [h2] at h'; exact Option.noConfusion h'
        | some cw2 =>
            rw [h2] at h'
            have hE2 : ElimInv n idx cw2 := transStep_pres n idx cw1
              (cw1.2.filter (fun j => decide (stabAt cw1.1 j i = Y))) cw2
              (hE1.1.1.filter _) (fun j hj => List.mem_of_mem_filter hj) hE1 h2
            have h3 : transStep cw2
                (cw2.2.filter (fun j => decide (stabAt cw2.1 j i = Z)))
                  = some cw' := h'
            exact transStep_pres n idx cw2
              (cw2.2.filter (fun j => decide (stabAt cw2.1 j i = Z))) cw'
              (hE2.1.1.filter _) (fun j hj => List.mem_of_mem_filter hj) hE2 h3

/-- Behavior of `_meas_all_comm` on an all-commuting column: the output
tableau keeps the invariant, the column shape and the length, and
contains a generator with the canonical pattern whose sign encodes the
returned bit. -/
lemma meas_all_comm_spec (idx : Nat) (sts : List Stabilizer) (b : Bool)
    (sts' : List Stabilizer) (hinv : Invariant sts) (hIZ : colIZ idx sts)
    (h : meas_all_comm idx sts = some (b, sts')) :
    Invariant sts' ∧ colIZ idx sts' ∧ sts'.length = sts.length ∧
    ∃ st ∈ sts', st.pauli = zPat idx sts.length ∧ b = decide (st.sign = -1) := by
  unfold meas_all_comm at h
  cases hf : sts.find?
      (fun st => decide (st.pauli = (make_z_stabilizer idx sts.length).pauli)) with
  | some chk =>
      simp only [hf] at h
      simp only [Option.some.injEq, Prod.mk.injEq] at h
      obtain ⟨hb, hsts⟩ := h
      subst hsts
      refine ⟨hinv, hIZ, rfl, chk, List.mem_of_find?_eq_some hf, ?_, hb.symm⟩
      have hpred := List.find?_some hf
      simp only [decide_eq_true_eq] at hpred
      exact hpred
  | none =>
      simp only [hf] at h
      have hstart : ElimInv sts.length idx (sts, List.range sts.length) := by
        refine ⟨⟨List.nodup_range _, fun j hj => List.mem_range.1 hj⟩, rfl, hinv, hIZ⟩
      cases hfold : (List.range sts.length).foldlM (elimPos idx)
          (sts, List.range sts.length) with
      | none => rw [hfold] at h; exact Option.noConfusion h
      | some cw =>
          rw [hfold] at h
          have hend : ElimInv sts.length idx cw :=
            foldlM_invariant (elimPos idx) (ElimInv sts.length idx)
              (fun a b a' ha hP => elimPos_pres sts.length idx a b a' hP ha)
              (List.range sts.length) (sts, List.range sts.length) cw hfold hstart
          have h' : (match (cw.2.map (getSt cw.1)).find?
              (fun st => decide
                (st.pauli = (make_z_stabilizer idx sts.length).pauli)) with
            | some chk => some (decide (chk.sign = -1), cw.1)
            | none => none) = some (b, sts') := h
          cases hg : (cw.2.map (getSt cw.1)).find?
              (fun st => decide
                (st.pauli = (make_z_stabilizer idx sts.length).pauli)) with
          | some chk =>
              rw [hg] at h'
              simp only [Option.some.injEq, Prod.mk.injEq] at h'
              obtain ⟨hb, hsts⟩ := h'
              subst hsts
              obtain ⟨⟨-, hwmem⟩, hlen, hinv', hIZ'⟩ := hend
              refine ⟨hinv', hIZ', hlen, ?_⟩
              have hchk := List.mem_of_find?_eq_some hg
              obtain ⟨j, hj, he⟩ := List.mem_map.1 hchk
              have hpred := List.find?_some hg
              simp only [decide_eq_true_eq] at hpred
              refine ⟨chk, ?_, hpred, hb.symm⟩
              rw [← he]
              exact getSt_mem _ j (by rw [hlen]; exact hwmem j hj)
          | none =>
              rw [hg] at h'
              exact Option.noConfusion h'

/-! ### Deterministic measurement path -/

/-- Two members of an invariant tableau with equal pauli strings are the
same generator. -/
lemma mem_same_pauli_eq (c : List Stabilizer) (hinv : Invariant c)
    (st1 st2 : Stabilizer) (h1 : st1 ∈ c) (h2 : st2 ∈ c)
    (hp : st1.pauli = st2.pauli) : st1 = st2 := by
  obtain ⟨i, hi, hei⟩ := List.getElem_of_mem h1
  obtain ⟨j, hj, hej⟩ := List.getElem_of_mem h2
  by_cases hij : i = j
  · subst hij
    exact hei.symm.trans hej
  · exfalso
    refine indep_no_dup c hinv i j hi hj hij ?_
    unfold getSt
    rw [List.getD_eq_getElem _ _ hi, List.getD_eq_getElem _ _ hj, hei, hej]
    exact hp

/-- With an all-`I`/`Z` column at `idx` the noncommuting filter is empty
and measurement takes the deterministic branch. -/
lemma measure1_det (r : Rat) (idx : Nat) (sts : List Stabilizer)
    (hIZ : colIZ idx sts) :
    measure1 r idx sts
      = (meas_all_comm idx sts).map (fun br => (br.1, br.2, false)) := by
  unfold measure1
  have hfilter : (List.range sts.length).filter
      (fun j => decide (stabAt sts j idx = X ∨ stabAt sts j idx = Y)) = [] := by
    rw [List.filter_eq_nil_iff]
    intro j hj
    rcases hIZ j (List.mem_range.1 hj) with h | h <;> simp [h]
  rw [hfilter]

/-- Fast-path determinism: when the tableau already contains a canonical
`Z`-at-`idx` generator and the column is all-`I`/`Z`, measuring reads
that generator's sign, consumes no randomness and leaves the tableau
unchanged. -/
lemma measure1_fast (r : Rat) (idx : Nat) (sts : List Stabilizer)
    (hinv : Invariant sts) (hIZ : colIZ idx sts) (st0 : Stabilizer)
    (hmem : st0 ∈ sts) (hp : st0.pauli = zPat idx sts.length) :
    measure1 r idx sts = some (decide (st0.sign = -1), sts, false) := by
  cases hf : sts.find?
      (fun st => decide (st.pauli = (make_z_stabilizer idx sts.length).pauli)) with
  | none =>
      exfalso
      have := List.find?_eq_none.1 hf st0 hmem
      simp only [decide_eq_true_eq] at this
      exact this hp
  | some chk =>
      have hchk_mem := List.mem_of_find?_eq_some hf
      have hchk_p := List.find?_some hf
      simp only [decide_eq_true_eq] at hchk_p
      have hcs : chk = st0 :=
        mem_same_pauli_eq sts hinv chk st0 hchk_mem hmem (hchk_p.trans hp.symm)
      have hm : meas_all_comm idx sts = some (decide (st0.sign = -1), sts) := by
        simp only [meas_all_comm, hf, hcs]
      rw [measure1_det r idx sts hIZ, hm]
      rfl

/-! ### Random-collapse measurement path -/

/-- Replacing a row that anticommutes with the new value `w`, while all
rows commute with the replaced row, preserves independence. -/
lemma indep_replace (ps : List (List Pauli)) (n j0 : Nat) (w : List Pauli)
    (hj0 : j0 < ps.length) (hWFstr : ∀ p ∈ ps, p.length = n) (hw : w.length = n)
    (hIndep : Indep ps n)
    (hcomm : ∀ p ∈ ps, acParity p (ps.getD j0 []) = false)
    (hac : acParity w (ps.getD j0 []) = true) :
    Indep (ps.set j0 w) n := by
  intro sel hsel hany
  have hsel_len : sel.length = ps.length := by
    simpa [List.length_set] using (mem_allSels _ sel).1 hsel
  by_cases hb : sel.getD j0 false
  · rw [maskProd_set_true sel ps n j0 w hb hj0 hWFstr]
    intro hcontra
    have hg0' : ps.getD j0 (idStr n) = ps.getD j0 [] := getD_indep hj0 _ _
    have hg0len : (ps.getD j0 []).length = n := hWFstr _ (getD_mem hj0 [])
    have hMlen : (maskProd sel ps n).length = n := maskProd_length _ _ _ hWFstr
    have hparity : acParity (strMul w (strMul (ps.getD j0 (idStr n))
        (maskProd sel ps n))) (ps.getD j0 []) = true := by
      rw [hg0']
      rw [acParity_mul_left w _ _
        (by rw [hw, strMul_length, hg0len, hMlen, Nat.min_self])]
      rw [acParity_mul_left _ _ _ (hg0len.trans hMlen.symm)]
      rw [hac, acParity_self,
        acParity_maskProd sel ps n _ hcomm hWFstr]
      rfl
    rw [hcontra, acParity_idStr] at hparity
    exact Bool.noConfusion hparity
  · rw [maskProd_set_false sel ps n j0 w (Bool.eq_false_iff.2 hb)]
    exact hIndep sel ((mem_allSels _ _).2 (by rw [hsel_len])) hany

/-- Overwriting the pivot with the canonical pattern after the
combinations preserves the invariant and yields an all-`I`/`Z` column. -/
lemma replace_pivot_invariant (sts1 : List Stabilizer) (j0 idx : Nat)
    (sgn : Int) (hinv1 : Invariant sts1) (hj0 : j0 < sts1.length)
    (hidx : idx < sts1.length)
    (hXY : stabAt sts1 j0 idx = X ∨ stabAt sts1 j0 idx = Y)
    (hIZo : ∀ m, m < sts1.length → m ≠ j0 →
      stabAt sts1 m idx = I ∨ stabAt sts1 m idx = Z) :
    Invariant (sts1.set j0 ⟨zPat idx sts1.length, sgn⟩) ∧
    colIZ idx (sts1.set j0 ⟨zPat idx sts1.length, sgn⟩) := by
  obtain ⟨hWF, hComm, hIndep⟩ := hinv1
  set n := sts1.length with hn
  have hzlen : (zPat idx n).length = n := zPat_length idx n hidx
  have hps_len : (strs sts1).length = n := by simp [strs, hn]
  have hWFstr : ∀ p ∈ strs sts1, p.length = n := by
    intro p hp
    obtain ⟨st, hst, he⟩ := List.mem_map.1 hp
    rw [← he]
    exact hWF st hst
  have hj0ps : j0 < (strs sts1).length := by rw [hps_len]; exact hj0
  have hstrs_set : strs (sts1.set j0 ⟨zPat idx n, sgn⟩)
      = (strs sts1).set j0 (zPat idx n) := by
    unfold strs
    exact List.map_set
  have hrowstr : ∀ m, m < n → (strs sts1).getD m [] = (getSt sts1 m).pauli :=
    fun m hm => strs_getD sts1 m [] (hm.trans_eq hn)
  have hrowlen : ∀ m, m < n → ((strs sts1).getD m []).length = n :=
    fun m hm => WF_strs_length sts1 hWF m [] hm
  have hstab_str : ∀ m, m < n →
      ((strs sts1).getD m []).getD idx I = stabAt sts1 m idx := by
    intro m hm
    rw [hrowstr m hm]
    rfl
  have hcomm_z : ∀ m, m < n → m ≠ j0 →
      commuteB (zPat idx n) ((strs sts1).getD m []) = true := by
    intro m hm hmj
    rw [commuteB_eq_true_iff,
      acParity_zPat idx n _ (hrowlen m hm) hidx, hstab_str m hm]
    rcases hIZo m hm hmj with h | h <;> rw [h] <;> rfl
  refine ⟨⟨?_, ?_, ?_⟩, ?_⟩
  · -- well-formedness
    intro st hst
    rw [List.length_set]
    rcases List.mem_or_eq_of_mem_set hst with h | h
    · exact hWF st h
    · rw [h]
      exact hzlen
  · -- pairwise commutation
    intro i hi i' hi' hii
    rw [hstrs_set] at hi hi' ⊢
    rw [List.length_set] at hi hi'
    by_cases hij : i = j0
    · have hi'j : i' ≠ j0 := fun he => hii (hij.trans he.symm)
      rw [hij, getD_set_self hj0ps, getD_set_ne (fun he => hi'j he.symm)]
      exact hcomm_z i' (by rw [← hps_len]; exact hi') hi'j
    · rw [getD_set_ne (fun he => hij he.symm)]
      by_cases hi'j : i' = j0
      · rw [hi'j, getD_set_self hj0ps, commuteB_symm]
        exact hcomm_z i (by rw [← hps_len]; exact hi) hij
      · rw [getD_set_ne (fun he => hi'j he.symm)]
        exact hComm i hi i' hi' hii
  · -- independence
    rw [hstrs_set, List.length_set]
    refine indep_replace (strs sts1) n j0 (zPat idx n) hj0ps hWFstr hzlen
      hIndep ?_ ?_
    · intro p hp
      obtain ⟨m, hm, he⟩ := List.getElem_of_mem hp
      rw [← he, ← List.getD_eq_getElem _ [] hm]
      by_cases hmj : m = j0
      · rw [hmj]
        exact acParity_self _
      · rw [← commuteB_eq_true_iff, commuteB_symm]
        exact hComm j0 hj0ps m hm (fun h => hmj h.symm)
    · rw [acParity_zPat idx n _ (hrowlen j0 hj0) hidx, hstab_str j0 hj0]
      rcases hXY with h | h <;> rw [h] <;> rfl
  · -- column shape
    intro m hm
    rw [List.length_set] at hm
    by_cases hmj : m = j0
    · subst hmj
      unfold stabAt
      rw [getSt_set_self sts1 m _ hm]
      show (zPat idx n).getD idx I = I ∨ (zPat idx n).getD idx I = Z
      rw [zPat_getD_idx idx n hidx]
      exact Or.inr rfl
    · unfold stabAt
      rw [getSt_set_ne sts1 j0 m _ (fun he => hmj he.symm)]
      exact hIZo m hm hmj

/-- An empty noncommuting filter forces an all-`I`/`Z` column. -/
lemma colIZ_of_filter_empty (idx : Nat) (sts : List Stabilizer)
    (hnc : (List.range sts.length).filter
      (fun j => decide (stabAt sts j idx = X ∨ stabAt sts j idx = Y)) = []) :
    colIZ idx sts := by
  intro m hm
  cases hP : stabAt sts m idx with
  | I => exact Or.inl rfl
  | Z => exact Or.inr rfl
  | X =>
      exfalso
      have : m ∈ (List.range sts.length).filter
          (fun j => decide (stabAt sts j idx = X ∨ stabAt sts j idx = Y)) :=
        List.mem_filter.2 ⟨List.mem_range.2 hm, by simp [hP]⟩
      rw [hnc] at this
      exact List.not_mem_nil m this
  | Y =>
      exfalso
      have : m ∈ (List.range sts.length).filter
          (fun j => decide (stabAt sts j idx = X ∨ stabAt sts j idx = Y)) :=
        List.mem_filter.2 ⟨List.mem_range.2 hm, by simp [hP]⟩
      rw [hnc] at this
      exact List.not_mem_nil m this

/-- Writing a value into an in-range slot makes it a member. -/
lemma set_mem_self {α : Type _} (l : List α) (i : Nat) (a : α)
    (h : i < l.length) : a ∈ l.set i a := by
  have hmem := getD_mem (l := l.set i a) (i := i) (d := a)
    (by rw [List.length_set]; exact h)
  rwa [getD_set_self h] at hmem

/-- Full behavioral specification of one measurement on an invariant
tableau: the result tableau keeps the invariant, has an all-`I`/`Z`
column at `idx`, keeps its length, and contains a canonical `Z`-at-`idx`
generator whose sign encodes the returned bit. -/
lemma measure1_spec (r : Rat) (idx : Nat) (sts : List Stabilizer)
    (hinv : Invariant sts) (hidx : idx < sts.length) (b : Bool)
    (sts' : List Stabilizer) (cflag : Bool)
    (h : measure1 r idx sts = some (b, sts', cflag)) :
    Invariant sts' ∧ colIZ idx sts' ∧ sts'.length = sts.length ∧
    ∃ st ∈ sts', st.pauli = zPat idx sts.length ∧ b = decide (st.sign = -1) := by
  have h' : (match (List.range sts.length).filter
      (fun j => decide (stabAt sts j idx = X ∨ stabAt sts j idx = Y)) with
    | [] => (meas_all_comm idx sts).map (fun br => (br.1, br.2, false))
    | j0 :: rest => (meas_noncomm idx r sts (j0 :: rest)).map
        (fun br => (br.1, br.2, true)))
      = some (b, sts', cflag) := h
  cases hnc : (List.range sts.length).filter
      (fun j => decide (stabAt sts j idx = X ∨ stabAt sts j idx = Y)) with
  | nil =>
      rw [hnc] at h'
      have hIZ := colIZ_of_filter_empty idx sts hnc
      cases hma : meas_all_comm idx sts with
      | none => rw [hma] at h'; exact Option.noConfusion h'
      | some br =>
          rw [hma] at h'
          injection h' with hX
          have hb : b = br.1 := (congrArg Prod.fst hX).symm
          have hsts' : sts' = br.2 := (congrArg (fun p => p.2.1) hX).symm
          subst hsts'
          have hspec := meas_all_comm_spec idx sts br.1 br.2 hinv hIZ
            (by rw [hma])
          refine ⟨hspec.1, hspec.2.1, hspec.2.2.1, ?_⟩
          obtain ⟨st, hmem, hp, hsign⟩ := hspec.2.2.2
          exact ⟨st, hmem, hp, hb ▸ hsign⟩
  | cons j0 rest =>
      rw [hnc] at h'
      obtain ⟨br, hmn, hX⟩ := Option.map_eq_some'.1 h'
      have hb : b = br.1 := (congrArg Prod.fst hX).symm
      have hsts' : sts' = br.2 := (congrArg (fun p => p.2.1) hX).symm
      subst hsts'
      -- facts about the filtered indices
      have hmemf : ∀ j, j ∈ j0 :: rest →
          j < sts.length ∧ (stabAt sts j idx = X ∨ stabAt sts j idx = Y) := by
        intro j hj
        rw [← hnc] at hj
        obtain ⟨hj1, hj2⟩ := List.mem_filter.1 hj
        exact ⟨List.mem_range.1 hj1, of_decide_eq_true hj2⟩
      have hnd : (j0 :: rest).Nodup := by
        rw [← hnc]
        exact (List.nodup_range _).filter _
      have hj0r : j0 ∉ rest := (List.nodup_cons.1 hnd).1
      have hndr : rest.Nodup := (List.nodup_cons.1 hnd).2
      have hj0n : j0 < sts.length := (hmemf j0 (List.mem_cons_self _ _)).1
      have hj0XY := (hmemf j0 (List.mem_cons_self _ _)).2
      have hnq : (getSt sts j0).pauli.length = sts.length :=
        hinv.1 _ (getSt_mem sts j0 hj0n)
      have hmn' : (rest.foldlM
          (fun c j => ((getSt c j).mul (getSt c j0)).map (fun v => c.set j v))
          sts).map
          (fun s1 =>
            if r < 1/2
            then (false, s1.set j0
              ⟨(make_z_stabilizer idx (getSt sts j0).pauli.length).pauli, 1⟩)
            else (true, s1.set j0
              ⟨(make_z_stabilizer idx (getSt sts j0).pauli.length).pauli, -1⟩))
          = some br := hmn
      obtain ⟨sv, hfoldM, hbr⟩ := Option.map_eq_some'.1 hmn'
      have hsv : sv = rest.foldl
          (fun c j => c.set j ((getSt c j).mulVal (getSt c j0))) sts :=
        foldlM_rowops_eq j0 rest sts sv hfoldM
      subst hsv
      set sts1 := rest.foldl
        (fun c j => c.set j ((getSt c j).mulVal (getSt c j0))) sts with hsts1
      have hrest_cond : ∀ j ∈ rest, j < sts.length ∧ j ≠ j0 := by
        intro j hj
        exact ⟨(hmemf j (List.mem_cons_of_mem _ hj)).1,
          fun he => hj0r (he ▸ hj)⟩
      have hfold := foldl_rowops_invariant j0 rest sts hrest_cond hj0n hinv
      have hinvs1 : Invariant sts1 := hfold.1
      have hlen1 : sts1.length = sts.length := hfold.2
      obtain ⟨-, hout, hin⟩ := foldl_rowops_spec j0 rest sts sts1 hsts1 hndr hj0r
      have hg0 : getSt sts1 j0 = getSt sts j0 := hout j0 hj0r
      have hXY1 : stabAt sts1 j0 idx = X ∨ stabAt sts1 j0 idx = Y := by
        unfold stabAt
        rw [hg0]
        exact hj0XY
      have hIZo : ∀ m, m < sts1.length → m ≠ j0 →
          stabAt sts1 m idx = I ∨ stabAt sts1 m idx = Z := by
        intro m hm hmj
        rw [hlen1] at hm
        by_cases hmr : m ∈ rest
        · have hrow := hin m hmr hm
          have hmul : (getSt sts1 m).pauli
              = strMul (getSt sts m).pauli (getSt sts j0).pauli := by
            rw [hrow]
            rfl
          unfold stabAt
          rw [hmul]
          have hla : (getSt sts m).pauli.length = sts.length :=
            hinv.1 _ (getSt_mem sts m hm)
          rw [getD_strMul _ _ idx (by rw [hla]; exact hidx)
            (by rw [hnq]; exact hidx)]
          have hmXY := (hmemf m (List.mem_cons_of_mem _ hmr)).2
          unfold stabAt at hmXY
          have hj0XY' := hj0XY
          unfold stabAt at hj0XY'
          rcases hmXY with h1 | h1 <;> rcases hj0XY' with h2 | h2 <;>
            rw [h1, h2] <;> first | exact Or.inl rfl | exact Or.inr rfl
        · have hrow := hout m hmr
          unfold stabAt
          rw [hrow]
          have hnotin : m ∉ j0 :: rest := by
            intro hc
            rcases List.mem_cons.1 hc with hc | hc
            · exact hmj hc
            · exact hmr hc
          cases hP : (getSt sts m).pauli.getD idx I with
          | I => exact Or.inl rfl
          | Z => exact Or.inr rfl
          | X =>
              exfalso
              refine hnotin ?_
              rw [← hnc]
              refine List.mem_filter.2 ⟨List.mem_range.2 hm, ?_⟩
              exact decide_eq_true (Or.inl hP)
          | Y =>
              exfalso
              refine hnotin ?_
              rw [← hnc]
              refine List.mem_filter.2 ⟨List.mem_range.2 hm, ?_⟩
              exact decide_eq_true (Or.inr hP)
      have hzq : zPat idx (getSt sts j0).pauli.length = zPat idx sts.length := by
        rw [hnq]
      have hres : br = if r < 1/2
            then (false, sts1.set j0 ⟨zPat idx sts.length, 1⟩)
            else (true, sts1.set j0 ⟨zPat idx sts.length, -1⟩) := by
        rw [← hzq]
        exact hbr.symm
      have hrepl := fun (sgn : Int) => replace_pivot_invariant sts1 j0 idx sgn
        hinvs1 (by rw [hlen1]; exact hj0n) (by rw [hlen1]; exact hidx)
        hXY1 hIZo
      have hz1 : zPat idx sts1.length = zPat idx sts.length := by
        rw [hlen1]
      have hj0len1 : j0 < sts1.length := by rw [hlen1]; exact hj0n
      by_cases hr : r < 1/2
      · rw [hres, if_pos hr]
        have hR := hrepl 1
        rw [hz1] at hR
        refine ⟨hR.1, hR.2, by rw [List.length_set, hlen1], ?_⟩
        refine ⟨⟨zPat idx sts.length, 1⟩, ?_, rfl, ?_⟩
        · exact set_mem_self sts1 j0 ⟨zPat idx sts.length, 1⟩ hj0len1
        · rw [hb, hres, if_pos hr]
          rfl
      · rw [hres, if_neg hr]
        have hR := hrepl (-1)
        rw [hz1] at hR
        refine ⟨hR.1, hR.2, by rw [List.length_set, hlen1], ?_⟩
        refine ⟨⟨zPat idx sts.length, -1⟩, ?_, rfl, ?_⟩
        · exact set_mem_self sts1 j0 ⟨zPat idx sts.length, -1⟩ hj0len1
        · rw [hb, hres, if_neg hr]
          rfl

/-- Determinism after a completed collapse: measuring the same qubit
twice in immediate succession, when the first measurement completes,
returns the identical boolean both times; the second measurement is
resolved deterministically by the canonical `Z`-at-`idx` generator the
first measurement placed in the tableau (fast path: no randomness
consumed, tableau unchanged). -/
lemma measure1_repeat (r1 r2 : Rat) (idx : Nat) (sts : List Stabilizer)
    (b1 : Bool) (sts1 : List Stabilizer) (c1 : Bool)
    (hinv : Invariant sts) (hidx : idx < sts.length)
    (h1 : measure1 r1 idx sts = some (b1, sts1, c1)) :
    measure1 r2 idx sts1 = some (b1, sts1, false) := by
  obtain ⟨hinv1, hIZ1, hlen1, st, hmem, hp, hsign⟩ :=
    measure1_spec r1 idx sts hinv hidx b1 sts1 c1 h1
  have hp2 : st.pauli = zPat idx sts1.length := by rw [hlen1]; exact hp
  rw [measure1_fast r2 idx sts1 hinv1 hIZ1 st hmem hp2, hsign]

/-! ### Conjugation maps preserve the invariant -/

/-- List extensionality through default reads. -/
lemma ext_getD : ∀ (a b : List Pauli), a.length = b.length →
    (∀ i, i < a.length → a.getD i I = b.getD i I) → a = b := by
  intro a
  induction a with
  | nil =>
      intro b hlen _
      cases b with
      | nil => rfl
      | cons y ys => exact absurd hlen (by simp)
  | cons x xs ih =>
      intro b hlen hget
      cases b with
      | nil => exact absurd hlen (by simp)
      | cons y ys =>
          have hx : x = y := hget 0 (by simp)
          rw [hx, ih ys (by simpa using hlen)
            (fun i hi => hget (i + 1) (by simpa using hi))]

/-- Subset products commute with a string transformer that is a
homomorphism on the relevant strings. -/
lemma maskProd_map (m : List Pauli → List Pauli) (n : Nat)
    (hmul : ∀ a b : List Pauli, a.length = n → b.length = n →
      strMul (m a) (m b) = m (strMul a b))
    (hid : m (idStr n) = idStr n) :
    ∀ (sel : List Bool) (ps : List (List Pauli)), (∀ p ∈ ps, p.length = n) →
    maskProd sel (ps.map m) n = m (maskProd sel ps n) := by
  intro sel
  induction sel with
  | nil =>
      intro ps _
      show idStr n = m (maskProd [] ps n)
      cases ps <;> exact hid.symm
  | cons b bs ih =>
      intro ps hps
      cases ps with
      | nil =>
          show idStr n = m (idStr n)
          exact hid.symm
      | cons p ps' =>
          have hrec := ih ps' (fun q hq => hps q (List.mem_cons_of_mem _ hq))
          cases b with
          | false => exact hrec
          | true =>
              show strMul (m p) (maskProd bs (ps'.map m) n) = m (strMul p (maskProd bs ps' n))
              rw [hrec, hmul p (maskProd bs ps' n) (hps p (List.mem_cons_self _ _))
                (maskProd_length bs ps' n
                  (fun q hq => hps q (List.mem_cons_of_mem _ hq)))]

/-- Mapping every generator through a stabilizer transformer whose
string action is a commutation-preserving homomorphism preserves the
tableau invariant. -/
lemma invariant_map (c : List Stabilizer) (F : Stabilizer → Stabilizer)
    (m : List Pauli → List Pauli)
    (hF : ∀ st ∈ c, (F st).pauli = m st.pauli)
    (hmlen : ∀ s : List Pauli, s.length = c.length → (m s).length = c.length)
    (hmac : ∀ a b : List Pauli, a.length = c.length → b.length = c.length →
      acParity (m a) (m b) = acParity a b)
    (hmmul : ∀ a b : List Pauli, a.length = c.length → b.length = c.length →
      strMul (m a) (m b) = m (strMul a b))
    (hmid : m (idStr c.length) = idStr c.length)
    (hminj : ∀ q : List Pauli, q.length = c.length →
      m q = idStr c.length → q = idStr c.length)
    (hinv : Invariant c) : Invariant (c.map F) := by
  obtain ⟨hWF, hComm, hIndep⟩ := hinv
  set n := c.length with hn
  have hWFstr : ∀ p ∈ strs c, p.length = n := by
    intro p hp
    obtain ⟨st, hst, he⟩ := List.mem_map.1 hp
    rw [← he]
    exact hWF st hst
  have hps_len : (strs c).length = n := by simp [strs, hn]
  have hstrs : strs (c.map F) = (strs c).map m := by
    unfold strs
    rw [List.map_map, List.map_map]
    exact List.map_congr_left (fun st hst => hF st hst)
  have hgetD_map : ∀ i, i < n →
      ((strs c).map m).getD i [] = m ((strs c).getD i []) := by
    intro i hi
    have hi' : i < ((strs c).map m).length := by
      rw [List.length_map, hps_len]
      exact hi
    rw [List.getD_eq_getElem _ _ hi', List.getElem_map,
      List.getD_eq_getElem _ _ (by rw [hps_len]; exact hi)]
  refine ⟨?_, ?_, ?_⟩
  · -- well-formedness
    intro st hst
    rw [List.length_map]
    obtain ⟨st0, hst0, he⟩ := List.mem_map.1 hst
    rw [← he, hF st0 hst0]
    exact hmlen _ (hWF st0 hst0)
  · -- commutation
    intro i hi i' hi' hii
    rw [hstrs] at hi hi' ⊢
    rw [List.length_map, hps_len] at hi hi'
    rw [hgetD_map i hi, hgetD_map i' hi']
    rw [commuteB_eq_true_iff,
      hmac _ _ (WF_strs_length c hWF i [] hi) (WF_strs_length c hWF i' [] hi')]
    rw [← commuteB_eq_true_iff]
    exact hComm i (by rw [hps_len]; exact hi) i' (by rw [hps_len]; exact hi') hii
  · -- independence
    intro sel hsel hany
    rw [List.length_map]
    rw [hstrs] at hsel ⊢
    have hsel_len : sel.length = (strs c).length := by
      have := (mem_allSels _ sel).1 hsel
      rwa [List.length_map] at this
    rw [maskProd_map m n hmmul hmid sel (strs c) hWFstr]
    intro hcontra
    have hq : maskProd sel (strs c) n = idStr n :=
      hminj _ (maskProd_length _ _ _ hWFstr) hcontra
    exact hIndep sel ((mem_allSels _ _).2 (by rw [hsel_len, hps_len])) hany hq

/-- Update one position of a string through a symbol map. -/
def mapAt (f : Pauli → Pauli) (idx : Nat) (l : List Pauli) : List Pauli :=
  l.set idx (f (l.getD idx I))

/-- Single-qubit conjugation fixes the identity symbol. -/
lemma sgSym_I (g : SGate) : sgSym g I = I := rfl

/-- Single-qubit conjugation is a homomorphism for the product symbol. -/
lemma sgSym_hom : ∀ (g : SGate) (a b : Pauli),
    sgSym g (pmulSym a b) = pmulSym (sgSym g a) (sgSym g b) := by decide

/-- Single-qubit conjugation preserves symbol anticommutation. -/
lemma sgSym_ac : ∀ (g : SGate) (a b : Pauli),
    acSym (sgSym g a) (sgSym g b) = acSym a b := by decide

/-- Single-qubit conjugation maps only the identity to the identity. -/
lemma sgSym_inj_I : ∀ (g : SGate) (p : Pauli), sgSym g p = I → p = I := by decide

/-- The string action of one single-qubit gate step. -/
lemma conj1_pauli (g : SGate) (idx : Nat) (st : Stabilizer) :
    (conj1 g idx st).pauli = mapAt (sgSym g) idx st.pauli := by
  unfold conj1 mapAt sgSym
  by_cases hp : st.pauli.getD idx I = I
  · rw [if_pos hp, if_pos hp]
    conv_rhs => rw [← hp]
    rw [set_getD_self]
  · rw [if_neg hp, if_neg hp]

/-- Position updates preserve the string length. -/
lemma mapAt_length (f : Pauli → Pauli) (idx : Nat) (l : List Pauli) :
    (mapAt f idx l).length = l.length := List.length_set ..

/-- Anticommutation parity through an anticommutation-preserving
position update. -/
lemma acParity_mapAt (f : Pauli → Pauli) (idx : Nat)
    (hac : ∀ a b, acSym (f a) (f b) = acSym a b)
    (a b : List Pauli) (hlen : a.length = b.length) :
    acParity (mapAt f idx a) (mapAt f idx b) = acParity a b := by
  by_cases hi : idx < a.length
  · unfold mapAt
    rw [acParity_set_set a b idx _ _ hlen hi, hac]
    cases acParity a b <;>
      cases acSym (a.getD idx I) (b.getD idx I) <;> rfl
  · unfold mapAt
    rw [List.set_eq_of_length_le (Nat.le_of_not_lt hi),
      List.set_eq_of_length_le (hlen ▸ Nat.le_of_not_lt hi)]

/-- String products through a homomorphic position update. -/
lemma strMul_mapAt (f : Pauli → Pauli) (idx : Nat)
    (hhom : ∀ a b, f (pmulSym a b) = pmulSym (f a) (f b))
    (a b : List Pauli) (hlen : a.length = b.length) :
    strMul (mapAt f idx a) (mapAt f idx b) = mapAt f idx (strMul a b) := by
  by_cases hi : idx < a.length
  · unfold mapAt
    rw [strMul_set_set a b idx _ _,
      getD_strMul a b idx hi (hlen ▸ hi), hhom]
  · unfold mapAt
    rw [List.set_eq_of_length_le (Nat.le_of_not_lt hi),
      List.set_eq_of_length_le (hlen ▸ Nat.le_of_not_lt hi),
      List.set_eq_of_length_le
        (by rw [strMul_length, ← hlen, Nat.min_self]; exact Nat.le_of_not_lt hi)]

/-- Reading the identity string gives the identity symbol. -/
lemma getD_idStr (n i : Nat) : (idStr n).getD i I = I :=
  getD_replicate_self n i I

/-- The identity string is fixed by an identity-fixing position update. -/
lemma mapAt_idStr (f : Pauli → Pauli) (idx n : Nat) (hI : f I = I) :
    mapAt f idx (idStr n) = idStr n := by
  unfold mapAt
  rw [getD_idStr, hI]
  conv_rhs => rw [← set_getD_self (idStr n) idx I]
  rw [getD_idStr]

/-- Only the identity string maps to the identity string. -/
lemma mapAt_inj_idStr (f : Pauli → Pauli) (idx n : Nat)
    (hinj : ∀ p, f p = I → p = I) (q : List Pauli) (hlen : q.length = n)
    (h : mapAt f idx q = idStr n) : q = idStr n := by
  by_cases hi : idx < n
  · refine ext_getD q (idStr n) (by simp [idStr, hlen]) ?_
    intro i hiq
    rw [hlen] at hiq
    have hread := congrArg (fun l => l.getD i I) h
    simp only [mapAt] at hread
    rw [getD_idStr] at hread
    by_cases hii : i = idx
    · subst hii
      rw [getD_set_self (by rw [hlen]; exact hi)] at hread
      rw [hinj _ hread, getD_idStr]
    · rw [getD_set_ne (fun he => hii he.symm)] at hread
      rw [hread, getD_idStr]
  · unfold mapAt at h
    rwa [List.set_eq_of_length_le (hlen ▸ Nat.le_of_not_lt hi)] at h

/-- One single-qubit gate application preserves the invariant. -/
lemma invariant_conj1 (g : SGate) (idx : Nat) (c : List Stabilizer)
    (hinv : Invariant c) : Invariant (c.map (conj1 g idx)) := by
  refine invariant_map c (conj1 g idx) (mapAt (sgSym g) idx)
    (fun st _ => conj1_pauli g idx st)
    (fun s hs => by rw [mapAt_length, hs])
    (fun a b ha hb => acParity_mapAt _ idx (sgSym_ac g) a b (ha.trans hb.symm))
    (fun a b ha hb => strMul_mapAt _ idx (fun a b => sgSym_hom g a b) a b
      (ha.trans hb.symm))
    (mapAt_idStr _ idx _ (sgSym_I g))
    (fun q hq h => mapAt_inj_idStr _ idx _ (sgSym_inj_I g) q hq h)
    hinv

/-- `_single_qubit_gate` preserves the invariant and the tableau size. -/
lemma invariant_single_qubit_gate (g : SGate) :
    ∀ (targets : List Nat) (ctx : Ctx), Invariant ctx.stabilizers →
    Invariant (single_qubit_gate g targets ctx).stabilizers ∧
    (single_qubit_gate g targets ctx).stabilizers.length
      = ctx.stabilizers.length := by
  intro targets
  induction targets with
  | nil => intro ctx hinv; exact ⟨hinv, rfl⟩
  | cons t ts ih =>
      intro ctx hinv
      have hstep := ih ⟨ctx.stabilizers.map (conj1 g t), ctx.measured⟩
        (invariant_conj1 g t ctx.stabilizers hinv)
      exact ⟨hstep.1, hstep.2.trans (List.length_map ..)⟩

/-! ### CX conjugation -/

/-- The symbol-pair action of CX on `(control, target)` symbols. -/
def cxPair (p : Pauli × Pauli) : Pauli × Pauli :=
  (if p.2 = Y ∨ p.2 = Z then pmulSym p.1 Z else p.1,
   if p.1 = X ∨ p.1 = Y then pmulSym X p.2 else p.2)

/-- CX is a homomorphism on symbol pairs. -/
lemma cxPair_hom : ∀ p q : Pauli × Pauli,
    cxPair (pmulSym p.1 q.1, pmulSym p.2 q.2)
      = (pmulSym (cxPair p).1 (cxPair q).1,
         pmulSym (cxPair p).2 (cxPair q).2) := by decide

/-- CX preserves the total anticommutation parity of a symbol pair. -/
lemma cxPair_ac : ∀ p q : Pauli × Pauli,
    xor (acSym (cxPair p).1 (cxPair q).1) (acSym (cxPair p).2 (cxPair q).2)
      = xor (acSym p.1 q.1) (acSym p.2 q.2) := by decide

/-- CX fixes the identity pair and nothing else maps to it. -/
lemma cxPair_II : cxPair (I, I) = (I, I) := by decide

/-- Only the identity pair maps to the identity pair. -/
lemma cxPair_inj : ∀ p : Pauli × Pauli, cxPair p = (I, I) → p = (I, I) := by
  decide

/-- The string action of one CX step. -/
def cxStr (c t : Nat) (l : List Pauli) : List Pauli :=
  (l.set t (cxPair (l.getD c I, l.getD t I)).2).set c
    (cxPair (l.getD c I, l.getD t I)).1

/-- The CX conjugation of the source acts on strings as `cxStr`. -/
lemma conjCX_pauli (c t : Nat) (hne : c ≠ t) (st : Stabilizer) :
    (conjCX c t st).pauli = cxStr c t st.pauli := by
  unfold conjCX cxStr cxPair
  by_cases h1 : st.pauli.getD c I = X ∨ st.pauli.getD c I = Y <;>
    by_cases h2 : st.pauli.getD t I = Y ∨ st.pauli.getD t I = Z
  · simp only [h1, h2, if_pos]
    rfl
  · simp only [h1, h2, if_pos, if_neg, not_false_iff]
    show st.pauli.set t (pmulSym X (st.pauli.getD t I))
      = (st.pauli.set t (pmulSym X (st.pauli.getD t I))).set c (st.pauli.getD c I)
    conv_lhs => rw [← set_getD_self
      (st.pauli.set t (pmulSym X (st.pauli.getD t I))) c I]
    rw [getD_set_ne (fun he => hne he.symm)]
  · simp only [h1, h2, if_pos, if_neg, not_false_iff]
    show st.pauli.set c (pmulSym (st.pauli.getD c I) Z)
      = (st.pauli.set t (st.pauli.getD t I)).set c (pmulSym (st.pauli.getD c I) Z)
    rw [set_getD_self]
  · simp only [h1, h2, if_neg, not_false_iff]
    show st.pauli
      = (st.pauli.set t (st.pauli.getD t I)).set c (st.pauli.getD c I)
    rw [set_getD_self]
    conv_lhs => rw [← set_getD_self st.pauli c I]

/-- Boolean parity shuffle used for the CX commutation argument. -/
lemma xor_shuffle : ∀ (P a1 a2 b1 b2 : Bool), xor b2 a2 = xor b1 a1 →
    xor (xor P (xor a1 a2)) (xor b1 b2) = P := by decide

/-- CX preserves the anticommutation parity of strings. -/
lemma acParity_cxStr (c t : Nat) (hne : c ≠ t) (a b : List Pauli)
    (hlen : a.length = b.length) (hc : c < a.length) (ht : t < a.length) :
    acParity (cxStr c t a) (cxStr c t b) = acParity a b := by
  unfold cxStr
  rw [acParity_set_set _ _ c _ _ (by rw [List.length_set, List.length_set, hlen])
    (by rw [List.length_set]; exact hc)]
  rw [getD_set_ne (fun he => hne he.symm), getD_set_ne (fun he => hne he.symm)]
  rw [acParity_set_set a b t _ _ hlen ht]
  exact xor_shuffle _ _ _ _ _
    (cxPair_ac (a.getD c I, a.getD t I) (b.getD c I, b.getD t I))

/-- CX is a homomorphism on strings. -/
lemma strMul_cxStr (c t : Nat) (a b : List Pauli)
    (hlen : a.length = b.length) (hc : c < a.length) (ht : t < a.length) :
    strMul (cxStr c t a) (cxStr c t b) = cxStr c t (strMul a b) := by
  unfold cxStr
  rw [strMul_set_set, strMul_set_set]
  rw [getD_strMul a b c hc (hlen ▸ hc), getD_strMul a b t ht (hlen ▸ ht)]
  have hhom := cxPair_hom (a.getD c I, a.getD t I) (b.getD c I, b.getD t I)
  rw [show cxPair (pmulSym (a.getD c I) (b.getD c I),
        pmulSym (a.getD t I) (b.getD t I))
      = (pmulSym (cxPair (a.getD c I, a.getD t I)).1
           (cxPair (b.getD c I, b.getD t I)).1,
         pmulSym (cxPair (a.getD c I, a.getD t I)).2
           (cxPair (b.getD c I, b.getD t I)).2) from hhom]

/-- CX fixes the identity string. -/
lemma cxStr_idStr (c t n : Nat) : cxStr c t (idStr n) = idStr n := by
  unfold cxStr
  rw [getD_idStr, getD_idStr]
  rw [show cxPair (I, I) = (I, I) from cxPair_II]
  have h1 : (idStr n).set t I = idStr n := by
    conv_rhs => rw [← set_getD_self (idStr n) t I]
    rw [getD_idStr]
  rw [h1]
  conv_rhs => rw [← set_getD_self (idStr n) c I]
  rw [getD_idStr]

/-- Only the identity string maps to the identity string under CX. -/
lemma cxStr_inj (c t n : Nat) (hne : c ≠ t) (hc : c < n) (ht : t < n)
    (q : List Pauli) (hlen : q.length = n) (h : cxStr c t q = idStr n) :
    q = idStr n := by
  have hread : ∀ i, (cxStr c t q).getD i I = I := by
    intro i
    rw [h, getD_idStr]
  have hpair : cxPair (q.getD c I, q.getD t I) = (I, I) := by
    have h1 : (cxStr c t q).getD c I
        = (cxPair (q.getD c I, q.getD t I)).1 := by
      unfold cxStr
      exact getD_set_self (by rw [List.length_set, hlen]; exact hc) _ _
    have h2 : (cxStr c t q).getD t I
        = (cxPair (q.getD c I, q.getD t I)).2 := by
      unfold cxStr
      rw [getD_set_ne hne]
      exact getD_set_self (by rw [hlen]; exact ht) _ _
    have := hread c
    rw [h1] at this
    have h2' := hread t
    rw [h2] at h2'
    exact Prod.ext this h2'
  have hqc : q.getD c I = I := congrArg Prod.fst (cxPair_inj _ hpair)
  have hqt : q.getD t I = I := congrArg Prod.snd (cxPair_inj _ hpair)
  refine ext_getD q (idStr n) (by simp [idStr, hlen]) ?_
  intro i hi
  rw [getD_idStr]
  by_cases hic : i = c
  · rw [hic]; exact hqc
  · by_cases hit : i = t
    · rw [hit]; exact hqt
    · have := hread i
      unfold cxStr at this
      rwa [getD_set_ne (fun he => hic he.symm),
        getD_set_ne (fun he => hit he.symm)] at this

/-- One CX application preserves the invariant. -/
lemma invariant_conjCX (c t : Nat) (cs : List Stabilizer) (hne : c ≠ t)
    (hc : c < cs.length) (ht : t < cs.length) (hinv : Invariant cs) :
    Invariant (cs.map (conjCX c t)) := by
  refine invariant_map cs (conjCX c t) (cxStr c t)
    (fun st _ => conjCX_pauli c t hne st)
    (fun s hs => by unfold cxStr; rw [List.length_set, List.length_set, hs])
    (fun a b ha hb => acParity_cxStr c t hne a b (ha.trans hb.symm)
      (by rw [ha]; exact hc) (by rw [ha]; exact ht))
    (fun a b ha hb => strMul_cxStr c t a b (ha.trans hb.symm)
      (by rw [ha]; exact hc) (by rw [ha]; exact ht))
    (cxStr_idStr c t _)
    (fun q hq h => cxStr_inj c t _ hne hc ht q hq h)
    hinv

/-- `gate_cx` preserves the invariant and the tableau size. -/
lemma invariant_gate_cx :
    ∀ (pairs : List (Nat × Nat)) (ctx : Ctx),
    (∀ p ∈ pairs, p.1 < ctx.stabilizers.length ∧
      p.2 < ctx.stabilizers.length ∧ p.1 ≠ p.2) →
    Invariant ctx.stabilizers →
    Invariant (gate_cx pairs ctx).stabilizers ∧
    (gate_cx pairs ctx).stabilizers.length = ctx.stabilizers.length := by
  intro pairs
  induction pairs with
  | nil => intro ctx _ hinv; exact ⟨hinv, rfl⟩
  | cons p ps ih =>
      intro ctx hval hinv
      have hp := hval p (List.mem_cons_self _ _)
      have hstep := ih ⟨ctx.stabilizers.map (conjCX p.1 p.2), ctx.measured⟩
        (by
          intro q hq
          have := hval q (List.mem_cons_of_mem _ hq)
          simpa [List.length_map] using this)
        (invariant_conjCX p.1 p.2 ctx.stabilizers hp.2.2 hp.1 hp.2.1 hinv)
      exact ⟨hstep.1, hstep.2.trans (List.length_map ..)⟩

/-- `gate_measure` preserves the invariant and the tableau size. -/
lemma invariant_gate_measure (rng : Nat → Rat) :
    ∀ (targets : List Nat) (ck ck' : Ctx × Nat),
    (∀ idx ∈ targets, idx < ck.1.stabilizers.length) →
    Invariant ck.1.stabilizers →
    gate_measure rng targets ck = some ck' →
    Invariant ck'.1.stabilizers ∧
    ck'.1.stabilizers.length = ck.1.stabilizers.length := by
  intro targets
  induction targets with
  | nil =>
      intro ck ck' _ hinv happ
      injection happ with h1
      subst h1
      exact ⟨hinv, rfl⟩
  | cons t ts ih =>
      intro ck ck' hval hinv happ
      rw [show gate_measure rng (t :: ts) ck
            = ((measure1 (rng ck.2) t ck.1.stabilizers).map
                (fun bsc => (⟨bsc.2.1, ck.1.measured.set t bsc.1⟩,
                  if bsc.2.2 then ck.2 + 1 else ck.2))).bind
              (fun ck1 => gate_measure rng ts ck1) from rfl] at happ
      cases hm : measure1 (rng ck.2) t ck.1.stabilizers with
      | none => rw [hm] at happ; exact Option.noConfusion happ
      | some bsc =>
          rw [hm] at happ
          have happ2 : gate_measure rng ts
              (⟨bsc.2.1, ck.1.measured.set t bsc.1⟩,
               if bsc.2.2 then ck.2 + 1 else ck.2) = some ck' := happ
          have hspec := measure1_spec (rng ck.2) t ck.1.stabilizers hinv
            (hval t (List.mem_cons_self _ _)) bsc.1 bsc.2.1 bsc.2.2 hm
          have hrec := ih (⟨bsc.2.1, ck.1.measured.set t bsc.1⟩,
              if bsc.2.2 then ck.2 + 1 else ck.2) ck'
            (by
              intro idx hidx
              show idx < bsc.2.1.length
              rw [hspec.2.2.1]
              exact hval idx (List.mem_cons_of_mem _ hidx))
            hspec.1 happ2
          exact ⟨hrec.1, hrec.2.trans hspec.2.2.1⟩

/-- Any supported operation with valid targets that completes without an
internal error maps an invariant tableau to an invariant tableau of the
same size. -/
lemma applyGate_invariant (rng : Nat → Rat) (g : Gate) (ctx : Ctx) (k : Nat)
    (ctx' : Ctx) (k' : Nat)
    (hvalid : validGateB g ctx.stabilizers.length = true)
    (hinv : Invariant ctx.stabilizers)
    (happ : applyGate rng g (ctx, k) = some (ctx', k')) :
    Invariant ctx'.stabilizers ∧
    ctx'.stabilizers.length = ctx.stabilizers.length := by
  cases g with
  | x ts =>
      injection happ with h1
      have hc : single_qubit_gate .x ts ctx = ctx' := congrArg Prod.fst h1
      rw [← hc]
      exact invariant_single_qubit_gate .x ts ctx hinv
  | y ts =>
      injection happ with h1
      have hc : single_qubit_gate .y ts ctx = ctx' := congrArg Prod.fst h1
      rw [← hc]
      exact invariant_single_qubit_gate .y ts ctx hinv
  | z ts =>
      injection happ with h1
      have hc : single_qubit_gate .z ts ctx = ctx' := congrArg Prod.fst h1
      rw [← hc]
      exact invariant_single_qubit_gate .z ts ctx hinv
  | h ts =>
      injection happ with h1
      have hc : single_qubit_gate .h ts ctx = ctx' := congrArg Prod.fst h1
      rw [← hc]
      exact invariant_single_qubit_gate .h ts ctx hinv
  | s ts =>
      injection happ with h1
      have hc : single_qubit_gate .s ts ctx = ctx' := congrArg Prod.fst h1
      rw [← hc]
      exact invariant_single_qubit_gate .s ts ctx hinv
  | sdg ts =>
      injection happ with h1
      have hc : single_qubit_gate .sdg ts ctx = ctx' := congrArg Prod.fst h1
      rw [← hc]
      exact invariant_single_qubit_gate .sdg ts ctx hinv
  | cx ps =>
      injection happ with h1
      have hc : gate_cx ps ctx = ctx' := congrArg Prod.fst h1
      rw [← hc]
      refine invariant_gate_cx ps ctx ?_ hinv
      intro p hp
      have hall := List.all_eq_true.1 hvalid p hp
      simp only [Bool.and_eq_true, decide_eq_true_eq] at hall
      exact ⟨hall.1.1, hall.1.2, hall.2⟩
  | measure ts =>
      refine invariant_gate_measure rng ts (ctx, k) (ctx', k') ?_ hinv happ
      intro idx hidx
      exact of_decide_eq_true (List.all_eq_true.1 hvalid idx hidx)


/-! ### The reachable phase-assertion failure -/

/-- C3: code-bug exhibit.  The tableau
`[XXXX(+1), YYYY(+1), ZZII(+1), IZZI(+1)]` is a valid Tableau State
(pairwise commuting, linearly independent, well-formed) and `measure`
on qubit `0` is a supported operation with a valid target, yet applying
it yields no tableau at all, for every random stream: the in-place
combination `YYYY *= XXXX` has summed phase `+4`, so the code's
`assert phase in (-2, 0, 2)` raises `AssertionError` instead of
producing a post-measurement tableau — contradicting the claim that
every supported operation yields an invariant tableau.  (Operations
that complete do preserve the invariant: `applyGate_invariant`.) -/
theorem claim_C3 :
    Invariant [⟨[X, X, X, X], 1⟩, ⟨[Y, Y, Y, Y], 1⟩,
               ⟨[Z, Z, I, I], 1⟩, ⟨[I, Z, Z, I], 1⟩] ∧
    validGateB (Gate.measure [0])
      ([⟨[X, X, X, X], 1⟩, ⟨[Y, Y, Y, Y], 1⟩,
        ⟨[Z, Z, I, I], 1⟩, ⟨[I, Z, Z, I], 1⟩] : List Stabilizer).length
        = true ∧
    (∀ rng : Nat → Rat,
      applyGate rng (Gate.measure [0])
        (⟨[⟨[X, X, X, X], 1⟩, ⟨[Y, Y, Y, Y], 1⟩,
           ⟨[Z, Z, I, I], 1⟩, ⟨[I, Z, Z, I], 1⟩], List.replicate 4 false⟩, 0)
        = none) :=
  ⟨by decide, by decide, fun rng => rfl⟩

/-- C4: code-bug exhibit.  On the valid tableau
`[XXXX(+1), YYYY(+1), ZZII(+1), IZZI(+1)]`, measuring qubit `0` raises
`AssertionError` (summed phase `+4` in `YYYY *= XXXX`) for every random
draw and returns no boolean at all, so measuring twice cannot return
the identical boolean both times — the claim fails because the first
measurement crashes.  (When the first measurement completes, the second
is deterministic and equal: `measure1_repeat`.) -/
theorem claim_C4 :
    Invariant [⟨[X, X, X, X], 1⟩, ⟨[Y, Y, Y, Y], 1⟩,
               ⟨[Z, Z, I, I], 1⟩, ⟨[I, Z, Z, I], 1⟩] ∧
    (∀ r : Rat,
      measure1 r 0 [⟨[X, X, X, X], 1⟩, ⟨[Y, Y, Y, Y], 1⟩,
                    ⟨[Z, Z, I, I], 1⟩, ⟨[I, Z, Z, I], 1⟩] = none) :=
  ⟨by decide, fun r => rfl⟩

/-- C5: code-bug exhibit.  On the valid tableau
`[XXXX(+1), YYYY(+1), ZZII(+1), IZZI(+1)]` the noncommuting filter for
qubit `0` is `[0, 1]` (the random-collapse case with pivot `XXXX`), and
the in-place combination `YYYY *= XXXX` has summed phase `+4`, outside
the asserted `{-2, 0, 2}`: the code raises `AssertionError` before the
random draw, so no generator is replaced, no pivot is overwritten and
no result is produced, for every `r` — contradicting the claimed
collapse behavior. -/
theorem claim_C5 :
    Invariant [⟨[X, X, X, X], 1⟩, ⟨[Y, Y, Y, Y], 1⟩,
               ⟨[Z, Z, I, I], 1⟩, ⟨[I, Z, Z, I], 1⟩] ∧
    (List.range 4).filter
      (fun j => decide (stabAt [⟨[X, X, X, X], 1⟩, ⟨[Y, Y, Y, Y], 1⟩,
          ⟨[Z, Z, I, I], 1⟩, ⟨[I, Z, Z, I], 1⟩] j 0 = X ∨
        stabAt [⟨[X, X, X, X], 1⟩, ⟨[Y, Y, Y, Y], 1⟩,
          ⟨[Z, Z, I, I], 1⟩, ⟨[I, Z, Z, I], 1⟩] j 0 = Y)) = [0, 1] ∧
    mulPhase ⟨[Y, Y, Y, Y], 1⟩ ⟨[X, X, X, X], 1⟩ = 4 ∧
    Stabilizer.mul ⟨[Y, Y, Y, Y], 1⟩ ⟨[X, X, X, X], 1⟩ = none ∧
    (∀ r : Rat,
      meas_noncomm 0 r [⟨[X, X, X, X], 1⟩, ⟨[Y, Y, Y, Y], 1⟩,
        ⟨[Z, Z, I, I], 1⟩, ⟨[I, Z, Z, I], 1⟩] [0, 1] = none) :=
  ⟨by decide, by decide, by decide, by decide, fun r => rfl⟩
